import Mathlib

/-!
Verification development for the Cloudbot conversational response resolution
engine.  The definitions below are a shallow embedding of the TypeScript
sources (backend/src/services/nlpService.ts, messageRouter.ts,
llmBrainService.ts, ragService callers, documentProcessorRag.ts,
embedding.service.ts).  Strings are modelled as `List Char`; the JavaScript
character classes used by the regexes (`\w`, `\s`) and `toLowerCase` are
modelled on the relevant code points (ASCII letters for lowering, the JS
whitespace set for `\s`).  Database reads are modelled by passing the already
fetched rows (active intents sorted by descending priority, active completed
knowledge items) as explicit lists, and `Math.random` picks are modelled by an
explicit index parameter; neither affects the verified fields.
-/

namespace Cloudbot

/-- Strings of the embedded program, as lists of characters. -/
abbrev Str := List Char

/-- Coercion from Lean string literals to the embedded string type. -/
def str (s : String) : Str := s.data

/-- The whitespace code points matched by the JavaScript regex class `\s`. -/
def jsWhitespace : List Char :=
  [' ', '\t', '\n', '\r', '\x0b', '\x0c', '\u00A0', '\u1680', '\u2000',
   '\u2001', '\u2002', '\u2003', '\u2004', '\u2005', '\u2006', '\u2007',
   '\u2008', '\u2009', '\u200A', '\u2028', '\u2029', '\u202F', '\u205F',
   '\u3000', '\uFEFF']

/-- Membership in the JS `\s` class. -/
def isSpaceJS (c : Char) : Bool := jsWhitespace.contains c

/-- Membership in the JS `\w` class: ASCII letters, digits and underscore. -/
def isWordCharJS (c : Char) : Bool :=
  ('a' ≤ c && c ≤ 'z') || ('A' ≤ c && c ≤ 'Z') || ('0' ≤ c && c ≤ '9') || c == '_'

/-- The ASCII upper/lower case pairs used by `toLowerCase` on the inputs the
engine handles (the sources apply JS `String.prototype.toLowerCase`; we model
its action on ASCII letters, the identity elsewhere). -/
def lowerPairs : List (Char × Char) :=
  [('A','a'), ('B','b'), ('C','c'), ('D','d'), ('E','e'), ('F','f'), ('G','g'),
   ('H','h'), ('I','i'), ('J','j'), ('K','k'), ('L','l'), ('M','m'), ('N','n'),
   ('O','o'), ('P','p'), ('Q','q'), ('R','r'), ('S','s'), ('T','t'), ('U','u'),
   ('V','v'), ('W','w'), ('X','x'), ('Y','y'), ('Z','z')]

/-- JS `toLowerCase`, one character at a time. -/
def toLowerJS (c : Char) : Char :=
  ((lowerPairs.find? (fun p => p.1 == c)).map Prod.snd).getD c

/-- Replacement step of `.replace(/[^\w\s]/g, ' ')`: characters that are
neither word characters nor whitespace become a space. -/
def stripPunct (c : Char) : Char :=
  if isWordCharJS c || isSpaceJS c then c else ' '

/-- Replacement `.replace(/\s+/g, ' ')`: each maximal whitespace run becomes a
single space character. -/
def collapseSpaces : Str → Str
  | [] => []
  | [c] => if isSpaceJS c then [' '] else [c]
  | c :: d :: rest =>
    if isSpaceJS c && isSpaceJS d then collapseSpaces (d :: rest)
    else (if isSpaceJS c then ' ' else c) :: collapseSpaces (d :: rest)

/-- JS `String.prototype.trim`: drop whitespace from both ends. -/
def trimJS (l : Str) : Str :=
  ((l.dropWhile isSpaceJS).reverse.dropWhile isSpaceJS).reverse

/-- nlpService.ts `normalizeForMatch`: lowercase, replace non-word characters
with spaces, collapse whitespace runs, trim. -/
def normalizeForMatch (s : Str) : Str :=
  trimJS (collapseSpaces ((s.map toLowerJS).map stripPunct))

/-- Inner-cell update of the Levenshtein dynamic program of nlpService.ts:
`matrix[i][j] = min(matrix[i-1][j] + 1, matrix[i][j-1] + 1, matrix[i-1][j-1] + cost)`.
Arguments: `up = matrix[i-1][j]`, `left = matrix[i][j-1]`, `diag = matrix[i-1][j-1]`. -/
def levCell (up left diag cost : Nat) : Nat :=
  min (min (up + 1) (left + 1)) (diag + cost)

/-- One row of the Levenshtein matrix past column 0: walks the first string
`a` keeping the previous row aligned so that at column `j` the previous-row
window is `matrix[i-1][j-1] :: matrix[i-1][j] :: …` and `left = matrix[i][j-1]`. -/
def levAux (y : Char) : Str → List Nat → Nat → List Nat
  | [], _, _ => []
  | x :: xs, diag :: up :: prest, left =>
    let cur := levCell up left diag (if x = y then 0 else 1)
    cur :: levAux y xs (up :: prest) cur
  | _ :: _, _, _ => []

/-- Row `i` of the matrix (for the character `y = b[i-1]`): starts with
`matrix[i][0] = i`, then the inner cells. -/
def levRow (y : Char) (a : Str) (prev : List Nat) (i : Nat) : List Nat :=
  i :: levAux y a prev i

/-- All rows of the DP, folded over the second string `b`; the state carries
the current row and its index. -/
def levRowsFold (a b : Str) : List Nat :=
  (b.foldl (fun (st : List Nat × Nat) y => (levRow y a st.1 (st.2 + 1), st.2 + 1))
    (List.range (a.length + 1), 0)).1

/-- nlpService.ts `levenshtein`: early returns for empty strings, otherwise
the DP matrix; the distance is `matrix[b.length][a.length]`, the last entry of
the final row. -/
def levenshtein (a b : Str) : Nat :=
  if a.isEmpty then b.length
  else if b.isEmpty then a.length
  else (levRowsFold a b).getLastD 0

/-- Recursive reference characterisation of the Levenshtein distance; used
only in proofs (the executable definition above is the source's DP). -/
def levRec : Str → Str → Nat
  | [], b => b.length
  | x :: xs, [] => (x :: xs).length
  | x :: xs, y :: ys =>
    min (min (levRec xs (y :: ys) + 1) (levRec (x :: xs) ys + 1))
      (levRec xs ys + if x = y then 0 else 1)
termination_by a b => (a.length, b.length)

/-- Exact nonnegative fraction used to model the floating-point scores and
confidences of the engine.  All scores the sources compute are exact
nonnegative rationals with small denominators; representing them as an
unreduced numerator/denominator pair keeps every program function kernel
computable (rational normalisation does not reduce in the kernel). -/
structure Frac where
  num : Nat
  den : Nat
deriving DecidableEq, Repr

/-- Value of a fraction as a rational number. -/
def Frac.val (x : Frac) : ℚ := (x.num : ℚ) / (x.den : ℚ)

/-- Comparison `x <= y` of scores by cross multiplication (sound whenever both
denominators are positive, which holds for every score the engine builds). -/
def fle (x y : Frac) : Bool := decide (x.num * y.den ≤ y.num * x.den)

/-- Comparison `x < y` of scores by cross multiplication. -/
def flt (x y : Frac) : Bool := decide (x.num * y.den < y.num * x.den)

/-- JS `Math.min` on scores. -/
def fmin (x y : Frac) : Frac := if fle x y then x else y

/-- JS `Math.max` on scores. -/
def fmax (x y : Frac) : Frac := if fle x y then y else x

/-- Shorthand for a numeric score literal `n / d`. -/
def q (n d : Nat) : Frac := ⟨n, d⟩

/-- nlpService.ts `stringSimilarity`: 1 for identical strings, 0 when either
is empty, otherwise `1 - d / max(len a, len b)`, represented exactly as the
fraction `(maxLen - d) / maxLen`. -/
def stringSimilarity (a b : Str) : Frac :=
  if a = b then q 1 1
  else if a.length = 0 || b.length = 0 then q 0 1
  else ⟨max a.length b.length - levenshtein a b, max a.length b.length⟩

/-- Splitting on whitespace runs (`.split(/\s+/)` followed by the length
filter of `getWords`; the possible leading empty token JS produces is removed
by that filter for every minimum length used by the sources, all at least 2). -/
def splitWs : Str → Str → List Str
  | cur, [] => if cur.isEmpty then [] else [cur.reverse]
  | cur, c :: rest =>
    if isSpaceJS c then
      (if cur.isEmpty then splitWs [] rest else cur.reverse :: splitWs [] rest)
    else splitWs (c :: cur) rest

/-- nlpService.ts stopword set. -/
def STOPWORDS : List Str :=
  [str "a", str "an", str "are", str "be", str "do", str "does", str "did",
   str "the", str "this", str "that", str "those", str "these", str "is",
   str "it", str "its", str "of", str "or", str "and", str "for", str "to",
   str "in", str "on", str "at", str "by", str "with", str "from", str "as"]

/-- nlpService.ts `getWords`: whitespace split, keep words of length at least
`minLen`, optionally drop stopwords. -/
def getWords (normalized : Str) (minLen : Nat) (dropStopwords : Bool) : List Str :=
  let ws := (splitWs [] normalized).filter (fun w => minLen ≤ w.length)
  if dropStopwords then ws.filter (fun w => !(STOPWORDS.contains w)) else ws

/-- nlpService.ts `wordOverlapScore`: fraction of input words having a phrase
word with similarity at least 0.75. -/
def wordOverlapScore (inputWords phraseWords : List Str) : Frac :=
  if inputWords.length = 0 then q 0 1
  else ⟨inputWords.countP
          (fun iw => phraseWords.any (fun pw => fle (q 3 4) (stringSimilarity iw pw))),
        inputWords.length⟩

/-- nlpService.ts `phraseMatchScore`: max of stopword-filtered word overlap
(falling back to unfiltered words when the filtered input is empty) and the
whole-string similarity. -/
def phraseMatchScore (normalizedInput phraseNorm : Str) : Frac :=
  let inputWords := getWords normalizedInput 2 true
  let phraseWords := getWords phraseNorm 2 true
  let overlap :=
    if 0 < inputWords.length then wordOverlapScore inputWords phraseWords
    else wordOverlapScore (getWords normalizedInput 2 false) (getWords phraseNorm 2 false)
  fmax overlap (stringSimilarity normalizedInput phraseNorm)

/-- A configured intent response: primary text and optional A/B variations. -/
structure IntentResponse where
  text : Str
  variations : List Str
deriving DecidableEq, Repr

/-- An intent row as read by the resolver: the query
`Intent.find(botId, isActive: true).sort(priority: -1)` already filtered on
activity and sorted by descending priority, so the resolver receives the
plain list in that order. -/
structure Intent where
  name : Str
  trainingPhrases : List Str
  responses : List IntentResponse
deriving DecidableEq, Repr

/-- Current best intent candidate of the resolution loop. -/
structure BestIntent where
  intent : Intent
  confidence : Frac
deriving DecidableEq, Repr

/-- JS `String.prototype.includes`: `includesJS needle hay` holds when
`needle` occurs contiguously in `hay`. -/
def includesJS : Str → Str → Bool
  | needle, [] => needle.isEmpty
  | needle, h :: t => needle.isPrefixOf (h :: t) || includesJS needle t

/-- Literal match test of the resolver: exact equality or substring
containment in either direction. -/
def literalMatch (normalizedInput phraseNorm : Str) : Bool :=
  phraseNorm == normalizedInput || includesJS phraseNorm normalizedInput
    || includesJS normalizedInput phraseNorm

/-- Inner phrase loop of `getBotResponse` for one intent: a literal match
updates the best candidate when its confidence strictly exceeds the stored one
and then breaks out of the phrase loop; otherwise a fuzzy score of at least
0.5 that strictly exceeds the stored confidence records the intent with
confidence `min(score, 0.88)`. -/
def scanPhrases (normalizedInput : Str) (intent : Intent) :
    Option BestIntent → List Str → Option BestIntent
  | best, [] => best
  | best, p :: ps =>
    let pn := normalizeForMatch p
    if literalMatch normalizedInput pn then
      let conf := if pn == normalizedInput then q 1 1 else q 9 10
      match best with
      | none => some ⟨intent, conf⟩
      | some b => if flt b.confidence conf then some ⟨intent, conf⟩ else some b
    else
      let score := phraseMatchScore normalizedInput pn
      let keep :=
        fle (q 1 2) score &&
          (match best with
           | none => true
           | some b => flt b.confidence score)
      let best' := if keep then some ⟨intent, fmin score (q 22 25)⟩ else best
      scanPhrases normalizedInput intent best' ps

/-- Outer intent loop of `getBotResponse`. -/
def findBestIntent (normalizedInput : Str) (intents : List Intent) : Option BestIntent :=
  intents.foldl (fun best i => scanPhrases normalizedInput i best i.trainingPhrases) none

/-- A knowledge chunk as stored in MongoDB (`content.chunks` entries). -/
structure KbChunk where
  text : Str
deriving DecidableEq, Repr

/-- A knowledge-base item as read by the resolver: the query already filtered
on `isActive` and `processing.status = completed`. -/
structure KbItem where
  title : Option Str
  chunks : List KbChunk
deriving DecidableEq, Repr

/-- Per-token match test of the knowledge scan: the token occurs literally in
the lowercased chunk text, or some chunk word is 0.75-similar to it. -/
def kbTokenHit (chunkTextLower : Str) (chunkWords : List Str) (iw : Str) : Bool :=
  includesJS iw chunkTextLower
    || chunkWords.any (fun cw => fle (q 3 4) (stringSimilarity iw cw))

/-- Acceptance test of the knowledge scan for one chunk: at least
`min(2, inputWords.length)` tokens hit, or exactly one token which hits. -/
def kbAccepts (inputWords : List Str) (ch : KbChunk) : Bool :=
  let chunkTextLower := ch.text.map toLowerJS
  let chunkWords := getWords (chunkTextLower.map stripPunct) 2 false
  let matchCount := inputWords.countP (kbTokenHit chunkTextLower chunkWords)
  decide (min 2 inputWords.length ≤ matchCount)
    || (inputWords.length == 1 && matchCount == 1)

/-- Knowledge scan of `getBotResponse`: the first accepted chunk in storage
order, together with the title of its item. -/
def findKbChunk (inputWords : List Str) : List KbItem → Option (Option Str × KbChunk)
  | [] => none
  | item :: items =>
    match item.chunks.find? (kbAccepts inputWords) with
    | some ch => some (item.title, ch)
    | none => findKbChunk inputWords items

/-- Provenance tag of a produced result (`BotResponseResult.source` and
`RouterResult.source` in the sources; the NLP service only ever produces the
first three). -/
inductive Source where
  | intent
  | knowledge_base
  | fallback
  | llm_generation
deriving DecidableEq, Repr

/-- Result record of nlpService.ts `getBotResponse` (and, with the same
fields, messageRouter.ts `RouterResult`; the response text is flattened into
`text`). -/
structure BotResponseResult where
  text : Str
  intent : Option Str
  confidence : Frac
  source : Source
  title : Option Str
deriving DecidableEq, Repr

/-- Response text for a matched intent: the first configured response, with a
uniformly random pick among `[text, ...variations]` when variations exist.
`pick` models the `Math.random` draw as an arbitrary index, reduced modulo the
number of options. -/
def intentResponseText (intent : Intent) (pick : Nat) : Str :=
  match intent.responses.head? with
  | none => str "No response configured."
  | some r =>
    if r.variations.isEmpty then r.text
    else
      let options := r.text :: r.variations
      options.getD (pick % options.length) r.text

/-- A bot document as read by the resolver and the router (`config` fields
that the two services consult; absent fields are `none`). -/
structure AiConfig where
  fallbackToIntent : Option Bool
deriving DecidableEq, Repr

/-- Routing mode of a bot (`config.aiMode`). -/
inductive AiMode where
  | intent_only
  | llm_first
  | hybrid
deriving DecidableEq, Repr

/-- Bot configuration fields consulted by nlpService.ts and messageRouter.ts. -/
structure BotConfig where
  aiMode : Option AiMode
  aiConfig : Option AiConfig
  confidenceThreshold : Option Frac
  fallbackMessages : Option (List Str)
deriving DecidableEq, Repr

/-- A bot document (only the parts the resolution engine reads). -/
structure Bot where
  config : BotConfig
deriving DecidableEq, Repr

/-- Fallback message chosen by `getBotResponse` when nothing matched: a random
pick from `bot.config.fallbackMessages` or the fixed default. -/
def fallbackText (bot : Bot) (pick : Nat) : Str :=
  let msgs := (bot.config.fallbackMessages).getD
    [str "I\x27m not sure I understood. Could you rephrase?"]
  msgs.getD (pick % msgs.length) (str "I\x27m not sure I understood. Could you rephrase?")

/-- nlpService.ts `getBotResponse`: intent matching first, then the knowledge
scan, then the fallback.  The database reads are modelled by the `intents`
(active, priority-sorted) and `kbItems` (active, completed) arguments; the
fire-and-forget unrecognized-query logging is a side effect without influence
on the returned record and is not modelled. -/
def getBotResponse (bot : Bot) (intents : List Intent) (kbItems : List KbItem)
    (pick : Nat) (message : Str) : BotResponseResult :=
  let normalizedInput := normalizeForMatch message
  match findBestIntent normalizedInput intents with
  | some best =>
    { text := intentResponseText best.intent pick
      intent := some best.intent.name
      confidence := best.confidence
      source := Source.intent
      title := none }
  | none =>
    let inputWords := getWords normalizedInput 2 false
    match findKbChunk inputWords kbItems with
    | some (title, ch) =>
      { text := ch.text.take 400
        intent := none
        confidence := q 7 10
        source := Source.knowledge_base
        title := title }
    | none =>
      { text := fallbackText bot pick
        intent := none
        confidence := q 0 1
        source := Source.fallback
        title := none }

/-- Outcome of one generative provider as seen by the service: `none` when
the provider is not configured; `some none` when the call fails or returns an
empty completion (both are converted to a null result by `tryGemini` and
`tryGroq`); `some (some t)` for a successful completion `t`. -/
abbrev ProviderOutcome := Option (Option Str)

/-- Provider environment of llmBrainService.ts: the lazily constructed Gemini
(primary) and Groq (secondary) clients together with what a call to each
would yield. -/
structure LLMEnv where
  gemini : ProviderOutcome
  groq : ProviderOutcome
deriving DecidableEq, Repr

/-- llmBrainService.ts `isLLMAvailable`: at least one provider client exists. -/
def isLLMAvailable (env : LLMEnv) : Bool :=
  env.gemini.isSome || env.groq.isSome

/-- Result record of llmBrainService.ts `generateLLMResponse` (text and
confidence; the source field of the record is always the literal
`llm_generation`). -/
structure LLMResult where
  text : Str
  confidence : Frac
  source : Source
deriving DecidableEq, Repr

/-- Fixed apology returned when every configured provider fails. -/
def llmApology : Str :=
  str "I\x27m having trouble processing that right now. Please try again or ask to speak with a human agent."

/-- Message returned when no provider is configured at all. -/
def llmNotConfiguredMsg : Str :=
  str "No AI provider is configured. Set GEMINI_API_KEY or GROQ_API_KEY in your .env to enable intelligent responses."

/-- llmBrainService.ts `generateLLMResponse`, instrumented with which
providers were actually called: Gemini first when configured, Groq on a null
result, and the fixed apology with confidence 0.3 when both fail; successes
carry the fixed confidence 0.95.  The RAG context and prompt construction only
shape the provider input and are not modelled; the function is total (never
throws). -/
def generateLLMResponseTr (env : LLMEnv) : LLMResult × Bool × Bool :=
  if !isLLMAvailable env then
    (⟨llmNotConfiguredMsg, q 0 1, Source.llm_generation⟩, false, false)
  else
    match env.gemini with
    | some (some t) => (⟨t, q 19 20, Source.llm_generation⟩, true, false)
    | geminiOutcome =>
      let geminiCalled := geminiOutcome.isSome
      match env.groq with
      | some (some t) => (⟨t, q 19 20, Source.llm_generation⟩, geminiCalled, true)
      | some none => (⟨llmApology, q 3 10, Source.llm_generation⟩, geminiCalled, true)
      | none => (⟨llmApology, q 3 10, Source.llm_generation⟩, geminiCalled, false)

/-- llmBrainService.ts `generateLLMResponse`: the returned record. -/
def generateLLMResponse (env : LLMEnv) : LLMResult :=
  (generateLLMResponseTr env).1

/-- messageRouter.ts `mapNlpToRouterResult` (the identity on the modelled
fields). -/
def mapNlpToRouterResult (r : BotResponseResult) : BotResponseResult := r

/-- messageRouter.ts `mapLLMToRouterResult`. -/
def mapLLMToRouterResult (r : LLMResult) : BotResponseResult :=
  { text := r.text
    intent := none
    confidence := r.confidence
    source := Source.llm_generation
    title := none }

/-- Router outcome instrumented with how many times each resolver ran. -/
structure RouteOutcome where
  result : BotResponseResult
  llmCalls : Nat
  nlpCalls : Nat
deriving DecidableEq, Repr

/-- messageRouter.ts `routeAndRespond`: intent-only and missing-provider
degradation first, then the llm_first and hybrid policies.  Conversation
context loading only shapes the provider input and is not modelled. -/
def routeAndRespond (bot : Bot) (intents : List Intent) (kbItems : List KbItem)
    (env : LLMEnv) (pick : Nat) (message : Str) : RouteOutcome :=
  let aiMode := (bot.config.aiMode).getD AiMode.intent_only
  let fallbackToIntent :=
    ((bot.config.aiConfig).getD ⟨none⟩).fallbackToIntent != some false
  if aiMode = AiMode.intent_only then
    ⟨mapNlpToRouterResult (getBotResponse bot intents kbItems pick message), 0, 1⟩
  else if !isLLMAvailable env then
    ⟨mapNlpToRouterResult (getBotResponse bot intents kbItems pick message), 0, 1⟩
  else if aiMode = AiMode.llm_first then
    let llmResult := generateLLMResponse env
    if fle (q 1 2) llmResult.confidence || !fallbackToIntent then
      ⟨mapLLMToRouterResult llmResult, 1, 0⟩
    else
      ⟨mapNlpToRouterResult (getBotResponse bot intents kbItems pick message), 1, 1⟩
  else
    let nlpResult := getBotResponse bot intents kbItems pick message
    let threshold := (bot.config.confidenceThreshold).getD (q 7 10)
    if fle threshold nlpResult.confidence && !(nlpResult.source == Source.fallback) then
      ⟨mapNlpToRouterResult nlpResult, 0, 1⟩
    else
      ⟨mapLLMToRouterResult (generateLLMResponse env), 1, 1⟩

/-- Configuration of the ingestion text splitter of documentProcessorRag.ts
(the `RecursiveCharacterTextSplitter` of the langchain library, an external
collaborator: the repository only chooses its parameters). -/
structure SplitterConfig where
  chunkSize : Nat
  chunkOverlap : Nat
  separators : List Str
deriving DecidableEq, Repr

/-- documentProcessorRag.ts `textSplitter`: 1000-character target chunks with
200 characters of overlap, splitting at paragraph, line, sentence, clause,
word and finally character boundaries. -/
def textSplitter : SplitterConfig :=
  { chunkSize := 1000
    chunkOverlap := 200
    separators :=
      [str "\n\n", str "\n", str ". ", str "! ", str "? ", str "; ",
       str ", ", str " ", str ""] }

/-- embedding.service.ts `RATE_LIMIT_DELAY_MS`. -/
def RATE_LIMIT_DELAY_MS : Nat := 1100

/-- Observable provider events of the batch-embedding loop. -/
inductive EmbedEvent where
  | call (text : Str)
  | wait (ms : Nat)
deriving DecidableEq, Repr

/-- embedding.service.ts `generateBatchEmbeddings`, instrumented with its
event trace: embeds the texts one at a time in order, sleeping a fixed
`RATE_LIMIT_DELAY_MS` between consecutive provider calls (never after the
last); `embed` models the provider. -/
def generateBatchEmbeddings (embed : Str → List Int) :
    List Str → List (List Int) × List EmbedEvent
  | [] => ([], [])
  | [t] => ([embed t], [EmbedEvent.call t])
  | t :: t' :: rest =>
    let (vecs, trace) := generateBatchEmbeddings embed (t' :: rest)
    (embed t :: vecs, EmbedEvent.call t :: EmbedEvent.wait RATE_LIMIT_DELAY_MS :: trace)

/-- ragVector.service.ts `processAndStoreDocument`, ingestion core: split the
document text with the configured splitter (`split` models the external
langchain splitter invoked with `textSplitter`), embed every chunk with the
rate-limited batch loop, and pair chunks with their embeddings for the upsert
into the per-bot collection. -/
def processAndStoreDocument (split : SplitterConfig → Str → List Str)
    (embed : Str → List Int) (text : Str) : List (Str × List Int) :=
  let chunks := split textSplitter text
  let embeddings := (generateBatchEmbeddings embed chunks).1
  chunks.zip embeddings

/-!
Correctness of the Levenshtein dynamic program: the matrix computed by
`levenshtein` agrees with the recursive characterisation `levRec` applied to
the reversed strings (row `i`, column `j` of the matrix holds the distance
between the length-`j` prefix of `a` and the length-`i` prefix of `b`, and
`levRec` peels leading characters, hence the reversal).
-/

/-- Specification of one matrix row: the value of `f` on every extension of
the reversed prefix `racc` by successive characters of `rem`. -/
def rowSpec (f : Str → Nat) : Str → Str → List Nat
  | racc, [] => [f racc]
  | racc, x :: xs => f racc :: rowSpec f (x :: racc) xs

/-- Tail of a specified row. -/
def rowSpecT (f : Str → Nat) : Str → Str → List Nat
  | _, [] => []
  | racc, x :: xs => rowSpec f (x :: racc) xs

theorem rowSpec_shape (f : Str → Nat) (racc rem : Str) :
    rowSpec f racc rem = f racc :: rowSpecT f racc rem := by
  cases rem <;> simp [rowSpec, rowSpecT]

theorem levRec_nil_right (a : Str) : levRec a [] = a.length := by
  cases a <;> simp [levRec]

theorem levRec_cons_cons (x y : Char) (xs ys : Str) :
    levRec (x :: xs) (y :: ys)
      = min (min (levRec xs (y :: ys) + 1) (levRec (x :: xs) ys + 1))
          (levRec xs ys + if x = y then 0 else 1) := by
  simp [levRec]

theorem levAux_spec (y : Char) (rbs : Str) :
    ∀ (rem racc : Str),
      levAux y rem (rowSpec (fun w => levRec w rbs) racc rem)
          (levRec racc (y :: rbs))
        = rowSpecT (fun w => levRec w (y :: rbs)) racc rem
  | [], racc => by simp [rowSpec, levAux, rowSpecT]
  | x :: xs, racc => by
    have hshape :
        rowSpec (fun w => levRec w rbs) racc (x :: xs)
          = levRec racc rbs
              :: (levRec (x :: racc) rbs
                  :: rowSpecT (fun w => levRec w rbs) (x :: racc) xs) := by
      rw [rowSpec, rowSpec_shape]
    have hshape2 :
        rowSpec (fun w => levRec w rbs) (x :: racc) xs
          = levRec (x :: racc) rbs :: rowSpecT (fun w => levRec w rbs) (x :: racc) xs := by
      rw [rowSpec_shape]
    have hcell :
        levCell (levRec (x :: racc) rbs) (levRec racc (y :: rbs)) (levRec racc rbs)
            (if x = y then 0 else 1)
          = levRec (x :: racc) (y :: rbs) := by
      rw [levRec_cons_cons, levCell]
      omega
    have hrec := levAux_spec y rbs xs (x :: racc)
    rw [hshape2] at hrec
    rw [hshape, levAux]
    show (levCell (levRec (x :: racc) rbs) (levRec racc (y :: rbs)) (levRec racc rbs)
            (if x = y then 0 else 1))
          :: levAux y xs
              (levRec (x :: racc) rbs :: rowSpecT (fun w => levRec w rbs) (x :: racc) xs)
              (levCell (levRec (x :: racc) rbs) (levRec racc (y :: rbs)) (levRec racc rbs)
                (if x = y then 0 else 1))
        = rowSpecT (fun w => levRec w (y :: rbs)) racc (x :: xs)
    rw [hcell, hrec, rowSpecT]
    exact (rowSpec_shape (fun w => levRec w (y :: rbs)) (x :: racc) xs).symm

theorem levRow_spec (y : Char) (rbs : Str) (a : Str) :
    levRow y a (rowSpec (fun w => levRec w rbs) [] a) (rbs.length + 1)
      = rowSpec (fun w => levRec w (y :: rbs)) [] a := by
  rw [levRow, rowSpec_shape (fun w => levRec w (y :: rbs))]
  have h0 : levRec ([] : Str) (y :: rbs) = rbs.length + 1 := by simp [levRec]
  rw [← h0, levAux_spec]

theorem levRowsFold_inv (a : Str) :
    ∀ (suf done : Str),
      suf.foldl (fun (st : List Nat × Nat) y => (levRow y a st.1 (st.2 + 1), st.2 + 1))
          (rowSpec (fun w => levRec w done.reverse) [] a, done.length)
        = (rowSpec (fun w => levRec w (done ++ suf).reverse) [] a, (done ++ suf).length)
  | [], done => by simp
  | y :: suf, done => by
    have hstep :
        levRow y a (rowSpec (fun w => levRec w done.reverse) [] a) (done.length + 1)
          = rowSpec (fun w => levRec w (done ++ [y]).reverse) [] a := by
      have h := levRow_spec y done.reverse a
      rw [List.length_reverse] at h
      rw [h]
      simp
    have hrec := levRowsFold_inv a suf (done ++ [y])
    simp only [List.foldl_cons, hstep]
    have hlen : done.length + 1 = (done ++ [y]).length := by simp
    rw [hlen, hrec]
    simp

theorem map_add_range_succ (A n : Nat) :
    (List.range (n + 1)).map (fun k => A + k)
      = A :: (List.range n).map (fun k => (A + 1) + k) := by
  rw [List.range_succ_eq_map, List.map_cons, List.map_map]
  congr 1
  apply List.map_congr_left
  intro k _
  simp only [Function.comp_apply]
  omega

theorem rowSpec_nil_fun (rem : Str) :
    ∀ racc : Str,
      rowSpec (fun w => levRec w []) racc rem
        = (List.range (rem.length + 1)).map (fun k => racc.length + k) := by
  induction rem with
  | nil =>
    intro racc
    simp [rowSpec, levRec_nil_right, List.range_succ]
  | cons x xs ih =>
    intro racc
    rw [rowSpec, ih (x :: racc)]
    simp only [List.length_cons]
    conv_rhs => rw [map_add_range_succ]
    rw [levRec_nil_right]

theorem rowSpec_getLastD (f : Str → Nat) :
    ∀ (rem racc : Str) (d : Nat),
      (rowSpec f racc rem).getLastD d = f (rem.reverse ++ racc)
  | [], racc, d => by simp [rowSpec]
  | x :: xs, racc, d => by
    rw [rowSpec, List.getLastD_cons, rowSpec_getLastD f xs (x :: racc)]
    simp

/-- The source's dynamic program computes the recursive Levenshtein distance
of the reversed strings. -/
theorem levenshtein_eq_levRec (a b : Str) :
    levenshtein a b = levRec a.reverse b.reverse := by
  rw [levenshtein]
  by_cases ha : a.isEmpty
  · have : a = [] := by cases a <;> simp_all
    subst this
    simp [levRec]
  · rw [if_neg ha]
    by_cases hb : b.isEmpty
    · have : b = [] := by cases b <;> simp_all
      subst this
      simp [levRec_nil_right]
    · rw [if_neg hb, levRowsFold]
      have hfold := levRowsFold_inv a b []
      simp only [List.reverse_nil, List.length_nil, List.nil_append] at hfold
      have hinit :
          (List.range (a.length + 1), (0 : Nat))
            = (rowSpec (fun w => levRec w []) [] a, (0 : Nat)) := by
        rw [rowSpec_nil_fun]
        simp
      rw [hinit, hfold, rowSpec_getLastD]
      simp

theorem levRec_comm : ∀ (a b : Str), levRec a b = levRec b a
  | [], b => by simp [levRec, levRec_nil_right]
  | _ :: _, [] => by simp [levRec, levRec_nil_right]
  | x :: xs, y :: ys => by
    have h1 := levRec_comm xs (y :: ys)
    have h2 := levRec_comm (x :: xs) ys
    have h3 := levRec_comm xs ys
    rw [levRec_cons_cons, levRec_cons_cons, h1, h2, h3]
    have hc : (if x = y then 0 else 1) = (if y = x then 0 else 1) := by
      by_cases hxy : x = y
      · simp [hxy]
      · simp [hxy, Ne.symm hxy]
    rw [hc]
    omega
termination_by a b => (a.length, b.length)

theorem levRec_le_max : ∀ (a b : Str), levRec a b ≤ max a.length b.length
  | [], b => by simp [levRec]
  | _ :: _, [] => by simp [levRec_nil_right]
  | x :: xs, y :: ys => by
    have h3 := levRec_le_max xs ys
    rw [levRec_cons_cons]
    have hc : (if x = y then 0 else 1) ≤ 1 := by split <;> omega
    simp only [List.length_cons]
    omega
termination_by a b => (a.length, b.length)

theorem levRec_self : ∀ (a : Str), levRec a a = 0
  | [] => by simp [levRec]
  | x :: xs => by
    have h := levRec_self xs
    rw [levRec_cons_cons]
    simp [h]

/-- Symmetry of the source's Levenshtein distance. -/
theorem levenshtein_comm (a b : Str) : levenshtein a b = levenshtein b a := by
  rw [levenshtein_eq_levRec, levenshtein_eq_levRec, levRec_comm]

/-- The source's Levenshtein distance is bounded by the longer length. -/
theorem levenshtein_le_max (a b : Str) :
    levenshtein a b ≤ max a.length b.length := by
  rw [levenshtein_eq_levRec]
  have := levRec_le_max a.reverse b.reverse
  simpa using this

/-- The source's Levenshtein distance of a string with itself is zero. -/
theorem levenshtein_self (a : Str) : levenshtein a a = 0 := by
  rw [levenshtein_eq_levRec, levRec_self]

/-!
Score fractions: soundness of the cross-multiplication comparisons with
respect to the rational value, and the range invariant maintained by every
score the engine produces.
-/

/-- A well-formed score: positive denominator and value at most one. -/
def Frac.Proper (x : Frac) : Prop := 0 < x.den ∧ x.num ≤ x.den

theorem Frac.val_nonneg (x : Frac) : 0 ≤ x.val := by
  rw [Frac.val]
  positivity

theorem Frac.Proper.val_le_one {x : Frac} (h : x.Proper) : x.val ≤ 1 := by
  rw [Frac.val]
  rw [div_le_one (by exact_mod_cast h.1)]
  exact_mod_cast h.2

theorem fle_iff {x y : Frac} (hx : 0 < x.den) (hy : 0 < y.den) :
    fle x y = true ↔ x.val ≤ y.val := by
  rw [fle, decide_eq_true_iff, Frac.val, Frac.val,
    div_le_div_iff (by exact_mod_cast hx) (by exact_mod_cast hy)]
  exact_mod_cast Iff.rfl

theorem flt_iff {x y : Frac} (hx : 0 < x.den) (hy : 0 < y.den) :
    flt x y = true ↔ x.val < y.val := by
  rw [flt, decide_eq_true_iff, Frac.val, Frac.val,
    div_lt_div_iff (by exact_mod_cast hx) (by exact_mod_cast hy)]
  exact_mod_cast Iff.rfl

theorem fmin_cases (x y : Frac) : fmin x y = x ∨ fmin x y = y := by
  rw [fmin]
  split <;> simp

theorem fmax_cases (x y : Frac) : fmax x y = x ∨ fmax x y = y := by
  rw [fmax]
  split <;> simp

theorem fmin_proper {x y : Frac} (hx : x.Proper) (hy : y.Proper) :
    (fmin x y).Proper := by
  rcases fmin_cases x y with h | h <;> rw [h] <;> assumption

theorem fmax_proper {x y : Frac} (hx : x.Proper) (hy : y.Proper) :
    (fmax x y).Proper := by
  rcases fmax_cases x y with h | h <;> rw [h] <;> assumption

theorem q_proper {n d : Nat} (h1 : 0 < d) (h2 : n ≤ d) : (q n d).Proper :=
  ⟨h1, h2⟩

/-- The similarity score always has a positive denominator and value in
[0, 1]. -/
theorem stringSimilarity_proper (a b : Str) : (stringSimilarity a b).Proper := by
  rw [stringSimilarity]
  by_cases hab : a = b
  · rw [if_pos hab]
    exact q_proper (by omega) (by omega)
  · rw [if_neg hab]
    by_cases h0 : (decide (a.length = 0) || decide (b.length = 0)) = true
    · rw [if_pos h0]
      exact q_proper (by omega) (by omega)
    · rw [if_neg h0]
      simp only [Bool.or_eq_true, decide_eq_true_eq, not_or] at h0
      refine ⟨?_, Nat.sub_le _ _⟩
      show 0 < max a.length b.length
      omega

/-- Value of the similarity score: exactly the formula
`1 - levenshtein(a,b) / max(|a|, |b|)` of the sources (at `a = b = ""` both
sides are 1 under the division-by-zero convention of `ℚ`). -/
theorem stringSimilarity_val (a b : Str) :
    (stringSimilarity a b).val
      = 1 - (levenshtein a b : ℚ) / ((max a.length b.length : ℕ) : ℚ) := by
  rw [stringSimilarity]
  by_cases hab : a = b
  · rw [if_pos hab]
    subst hab
    rw [levenshtein_self]
    simp [q, Frac.val]
  · rw [if_neg hab]
    by_cases h0 : (decide (a.length = 0) || decide (b.length = 0)) = true
    · rw [if_pos h0]
      simp only [Bool.or_eq_true, decide_eq_true_eq] at h0
      have hval : (q 0 1).val = 0 := by simp [q, Frac.val]
      rw [hval]
      rcases h0 with h0 | h0
      · have ha : a = [] := List.length_eq_zero.mp h0
        subst ha
        have hb : b.length ≠ 0 := fun hb0 => hab (List.length_eq_zero.mp hb0).symm
        have hlev : levenshtein [] b = b.length := by simp [levenshtein]
        rw [hlev]
        have hmax : max ([] : Str).length b.length = b.length := by simp
        rw [hmax, div_self (by exact_mod_cast hb)]
        norm_num
      · have hb : b = [] := List.length_eq_zero.mp h0
        subst hb
        have ha : a.length ≠ 0 := fun ha0 => hab (List.length_eq_zero.mp ha0)
        have hlev : levenshtein a [] = a.length := by
          rw [levenshtein]
          have hne : ¬a.isEmpty = true := by
            cases a
            · simp at ha
            · simp
          rw [if_neg hne]
          simp
        rw [hlev]
        have hmax : max a.length ([] : Str).length = a.length := by simp
        rw [hmax, div_self (by exact_mod_cast ha)]
        norm_num
    · rw [if_neg h0]
      simp only [Bool.or_eq_true, decide_eq_true_eq, not_or] at h0
      have hm : 0 < max a.length b.length := by omega
      have hd := levenshtein_le_max a b
      show ((max a.length b.length - levenshtein a b : ℕ) : ℚ)
          / ((max a.length b.length : ℕ) : ℚ)
        = 1 - (levenshtein a b : ℚ) / ((max a.length b.length : ℕ) : ℚ)
      rw [Nat.cast_sub hd, sub_div, div_self (by exact_mod_cast Nat.not_eq_zero_of_lt hm)]

/-- Structural symmetry of the similarity score. -/
theorem stringSimilarity_comm (a b : Str) :
    stringSimilarity a b = stringSimilarity b a := by
  rw [stringSimilarity, stringSimilarity]
  by_cases hab : a = b
  · subst hab
    rfl
  · rw [if_neg hab, if_neg (fun h : b = a => hab h.symm)]
    by_cases h0 : a.length = 0 ∨ b.length = 0
    · have h1 : (decide (a.length = 0) || decide (b.length = 0)) = true := by
        rcases h0 with h | h <;> simp [h]
      have h2 : (decide (b.length = 0) || decide (a.length = 0)) = true := by
        rcases h0 with h | h <;> simp [h]
      rw [if_pos h1, if_pos h2]
    · push_neg at h0
      have h1 : ¬(decide (a.length = 0) || decide (b.length = 0)) = true := by
        simp [h0.1, h0.2]
      have h2 : ¬(decide (b.length = 0) || decide (a.length = 0)) = true := by
        simp [h0.1, h0.2]
      rw [if_neg h1, if_neg h2, levenshtein_comm, Nat.max_comm]

/-!
Idempotence of the normaliser.  The output of `normalizeForMatch` consists of
lower-stable word characters separated by single plain spaces, with no leading
or trailing space; a second pass leaves such a string unchanged.
-/

theorem word_not_space {c : Char} (h : isWordCharJS c = true) :
    isSpaceJS c = false := by
  by_contra hs
  have hs' : isSpaceJS c = true := by
    cases hmm : isSpaceJS c
    · exact absurd hmm hs
    · rfl
  have hmem : c ∈ jsWhitespace := by
    rw [isSpaceJS] at hs'
    simpa using hs'
  have hall : ∀ x ∈ jsWhitespace, isWordCharJS x = false := by decide
  rw [hall c hmem] at h
  cases h

theorem toLowerJS_idem (c : Char) : toLowerJS (toLowerJS c) = toLowerJS c := by
  cases hfind : lowerPairs.find? (fun p => p.1 == c) with
  | none =>
    have h1 : toLowerJS c = c := by
      rw [toLowerJS, hfind]
      rfl
    rw [h1]
    exact h1
  | some pr =>
    have h1 : toLowerJS c = pr.2 := by
      rw [toLowerJS, hfind]
      rfl
    have hmem := List.mem_of_find?_eq_some hfind
    have hall : ∀ p ∈ lowerPairs, lowerPairs.find? (fun r => r.1 == p.2) = none := by
      decide
    rw [h1, toLowerJS, hall pr hmem]
    rfl

/-- The property `isSpaceJS a && isSpaceJS b = false` on adjacent characters:
no two adjacent whitespace characters. -/
def NoAdjSpace (l : Str) : Prop :=
  List.Chain' (fun a b => ¬(isSpaceJS a = true ∧ isSpaceJS b = true)) l

theorem collapse_mem :
    ∀ (l : Str) (c : Char), c ∈ collapseSpaces l →
      c = ' ' ∨ (isSpaceJS c = false ∧ c ∈ l)
  | [], c, h => by simp [collapseSpaces] at h
  | [d], c, h => by
    rw [collapseSpaces] at h
    by_cases hd : isSpaceJS d = true
    · rw [if_pos hd] at h
      left
      simpa using h
    · rw [if_neg hd] at h
      right
      have : c = d := by simpa using h
      subst this
      exact ⟨by simpa using hd, by simp⟩
  | c1 :: c2 :: rest, c, h => by
    rw [collapseSpaces] at h
    by_cases h12 : (isSpaceJS c1 && isSpaceJS c2) = true
    · rw [if_pos h12] at h
      rcases collapse_mem (c2 :: rest) c h with h' | h'
      · exact Or.inl h'
      · exact Or.inr ⟨h'.1, List.mem_cons_of_mem _ h'.2⟩
    · rw [if_neg h12] at h
      rcases List.mem_cons.mp h with h' | h'
      · by_cases h1 : isSpaceJS c1 = true
        · rw [if_pos h1] at h'
          exact Or.inl h'
        · rw [if_neg h1] at h'
          subst h'
          exact Or.inr ⟨by simpa using h1, by simp⟩
      · rcases collapse_mem (c2 :: rest) c h' with h'' | h''
        · exact Or.inl h''
        · exact Or.inr ⟨h''.1, List.mem_cons_of_mem _ h''.2⟩

theorem collapse_head_nonspace {c2 : Char} (rest : Str)
    (h : isSpaceJS c2 = false) :
    ∃ t, collapseSpaces (c2 :: rest) = c2 :: t := by
  cases rest with
  | nil =>
    rw [collapseSpaces, if_neg (by simp [h])]
    exact ⟨[], rfl⟩
  | cons r rs =>
    rw [collapseSpaces, if_neg (by simp [h]), if_neg (by simp [h])]
    exact ⟨_, rfl⟩

theorem collapse_noAdjSpace : ∀ (l : Str), NoAdjSpace (collapseSpaces l)
  | [] => by simp [collapseSpaces, NoAdjSpace]
  | [d] => by
    rw [NoAdjSpace, collapseSpaces]
    split <;> simp
  | c1 :: c2 :: rest => by
    rw [NoAdjSpace, collapseSpaces]
    by_cases h12 : (isSpaceJS c1 && isSpaceJS c2) = true
    · rw [if_pos h12]
      exact collapse_noAdjSpace (c2 :: rest)
    · rw [if_neg h12]
      have htail : NoAdjSpace (collapseSpaces (c2 :: rest)) :=
        collapse_noAdjSpace (c2 :: rest)
      by_cases h1 : isSpaceJS c1 = true
      · have h2 : isSpaceJS c2 = false := by
          cases hc2 : isSpaceJS c2
          · rfl
          · exact absurd (by simp [h1, hc2]) h12
        rw [if_pos h1]
        obtain ⟨t, ht⟩ := collapse_head_nonspace rest h2
        rw [ht]
        rw [ht] at htail
        exact List.Chain'.cons (by simp [h2]) htail
      · rw [if_neg h1]
        cases hc : collapseSpaces (c2 :: rest) with
        | nil => simp
        | cons h' t' =>
          rw [hc] at htail
          exact List.Chain'.cons (by simp [h1]) htail

theorem collapse_fixed :
    ∀ (l : Str), (∀ c ∈ l, isSpaceJS c = true → c = ' ') → NoAdjSpace l →
      collapseSpaces l = l
  | [], _, _ => rfl
  | [d], hsp, _ => by
    rw [collapseSpaces]
    by_cases hd : isSpaceJS d = true
    · rw [if_pos hd, hsp d (by simp) hd]
    · rw [if_neg hd]
  | c1 :: c2 :: rest, hsp, hadj => by
    have h12 : ¬(isSpaceJS c1 && isSpaceJS c2) = true := by
      have := (List.chain'_cons.mp hadj).1
      simp only [Bool.and_eq_true]
      exact this
    rw [collapseSpaces, if_neg h12]
    have hrec := collapse_fixed (c2 :: rest)
      (fun c hc => hsp c (List.mem_cons_of_mem _ hc))
      (List.chain'_cons.mp hadj).2
    rw [hrec]
    by_cases h1 : isSpaceJS c1 = true
    · rw [if_pos h1, hsp c1 (by simp) h1]
    · rw [if_neg h1]

theorem dropWhile_head_false {p : Char → Bool} :
    ∀ {l c t}, List.dropWhile p l = c :: t → p c = false
  | [], c, t, h => by simp [List.dropWhile] at h
  | d :: ds, c, t, h => by
    rw [List.dropWhile_cons] at h
    by_cases hd : p d = true
    · rw [if_pos hd] at h
      exact dropWhile_head_false h
    · rw [if_neg hd] at h
      cases h
      simpa using hd

theorem dropWhile_getLast? {p : Char → Bool} :
    ∀ (l : Str), List.dropWhile p l ≠ [] →
      (List.dropWhile p l).getLast? = l.getLast?
  | [], h => rfl
  | d :: ds, h => by
    rw [List.dropWhile_cons] at h ⊢
    by_cases hd : p d = true
    · rw [if_pos hd] at h ⊢
      have hds : ds ≠ [] := by
        intro hnil
        subst hnil
        simp [List.dropWhile] at h
      rw [dropWhile_getLast? ds h]
      cases ds with
      | nil => exact absurd rfl hds
      | cons e es => rw [List.getLast?_cons_cons]
    · rw [if_neg hd] at h ⊢

theorem trimJS_sublist_mem {m : Str} {c : Char} (h : c ∈ trimJS m) : c ∈ m := by
  rw [trimJS] at h
  rw [List.mem_reverse] at h
  have h1 := (List.dropWhile_suffix (l := (List.dropWhile isSpaceJS m).reverse)
    isSpaceJS).mem h
  rw [List.mem_reverse] at h1
  exact (List.dropWhile_suffix isSpaceJS).mem h1

theorem trimJS_head {m : Str} {c : Char} (h : (trimJS m).head? = some c) :
    isSpaceJS c = false := by
  rw [trimJS, List.head?_reverse] at h
  cases hw : List.dropWhile isSpaceJS (List.dropWhile isSpaceJS m).reverse with
  | nil => rw [hw] at h; cases h
  | cons w t =>
    have hne : List.dropWhile isSpaceJS (List.dropWhile isSpaceJS m).reverse ≠ [] := by
      rw [hw]; exact List.cons_ne_nil _ _
    rw [dropWhile_getLast? _ hne, List.getLast?_reverse] at h
    cases hv : List.dropWhile isSpaceJS m with
    | nil => rw [hv] at h; cases h
    | cons v vt =>
      rw [hv] at h
      simp only [List.head?_cons, Option.some.injEq] at h
      subst h
      exact dropWhile_head_false hv

theorem trimJS_getLast {m : Str} {c : Char} (h : (trimJS m).getLast? = some c) :
    isSpaceJS c = false := by
  rw [trimJS, List.getLast?_reverse] at h
  cases hw : List.dropWhile isSpaceJS (List.dropWhile isSpaceJS m).reverse with
  | nil => rw [hw] at h; cases h
  | cons w t =>
    rw [hw] at h
    simp only [List.head?_cons, Option.some.injEq] at h
    subst h
    exact dropWhile_head_false hw

theorem trimJS_noAdjSpace {m : Str} (h : NoAdjSpace m) : NoAdjSpace (trimJS m) := by
  rw [NoAdjSpace] at h ⊢
  rw [trimJS, List.chain'_reverse]
  have h1 := h.suffix (List.dropWhile_suffix isSpaceJS)
  have h2 : List.Chain' (flip fun a b => ¬(isSpaceJS a = true ∧ isSpaceJS b = true))
      (List.dropWhile isSpaceJS m).reverse := by
    rw [List.chain'_reverse]
    exact h1
  exact h2.suffix (List.dropWhile_suffix isSpaceJS)

theorem trimJS_fixed {n : Str}
    (hh : ∀ c, n.head? = some c → isSpaceJS c = false)
    (hl : ∀ c, n.getLast? = some c → isSpaceJS c = false) :
    trimJS n = n := by
  rw [trimJS]
  have h1 : List.dropWhile isSpaceJS n = n := by
    cases n with
    | nil => rfl
    | cons c t =>
      rw [List.dropWhile_cons, if_neg (by simp [hh c rfl])]
  rw [h1]
  have h2 : List.dropWhile isSpaceJS n.reverse = n.reverse := by
    cases hr : n.reverse with
    | nil => rfl
    | cons c t =>
      have hc : n.getLast? = some c := by
        rw [← List.head?_reverse, hr]
        rfl
      rw [List.dropWhile_cons, if_neg (by simp [hl c hc])]
  rw [h2, List.reverse_reverse]

/-- Character map applied by the normaliser before whitespace processing. -/
def normStep (c : Char) : Char := stripPunct (toLowerJS c)

theorem normalizeForMatch_eq_pipeline (s : Str) :
    normalizeForMatch s = trimJS (collapseSpaces (s.map normStep)) := by
  rw [normalizeForMatch, List.map_map]
  rfl

/-- Shape of normaliser output: plain spaces and lower-stable word characters,
no adjacent spaces, no space at either end. -/
def NormOut (n : Str) : Prop :=
  (∀ c ∈ n, c = ' ' ∨ (isWordCharJS c = true ∧ toLowerJS c = c)) ∧
  NoAdjSpace n ∧
  (∀ c, n.head? = some c → isSpaceJS c = false) ∧
  (∀ c, n.getLast? = some c → isSpaceJS c = false)

theorem normStep_cases (x : Char) :
    normStep x = ' ' ∨ isSpaceJS (normStep x) = true ∨
      (isWordCharJS (normStep x) = true ∧ toLowerJS (normStep x) = normStep x) := by
  rw [normStep, stripPunct]
  by_cases hw : (isWordCharJS (toLowerJS x) || isSpaceJS (toLowerJS x)) = true
  · rw [if_pos hw]
    rcases Bool.or_eq_true_iff.mp hw with h | h
    · exact Or.inr (Or.inr ⟨h, toLowerJS_idem x⟩)
    · exact Or.inr (Or.inl h)
  · rw [if_neg hw]
    exact Or.inl rfl

theorem normalize_normOut (s : Str) : NormOut (normalizeForMatch s) := by
  rw [normalizeForMatch_eq_pipeline]
  refine ⟨?_, ?_, ?_, ?_⟩
  · intro c hc
    have hc' := trimJS_sublist_mem hc
    rcases collapse_mem _ c hc' with h | ⟨hns, hmem⟩
    · exact Or.inl h
    · rcases List.mem_map.mp hmem with ⟨x, _, hx⟩
      subst hx
      rcases normStep_cases x with h | h | h
      · exact Or.inl h
      · rw [h] at hns; cases hns
      · exact Or.inr h
  · exact trimJS_noAdjSpace (collapse_noAdjSpace _)
  · exact fun c h => trimJS_head h
  · exact fun c h => trimJS_getLast h

theorem normOut_fixed {n : Str} (h : NormOut n) : normalizeForMatch n = n := by
  obtain ⟨hchar, hadj, hh, hl⟩ := h
  rw [normalizeForMatch_eq_pipeline]
  have hstep : ∀ c ∈ n, normStep c = id c := by
    intro c hc
    rcases hchar c hc with rfl | ⟨hw, hlow⟩
    · rfl
    · rw [normStep, hlow, stripPunct, if_pos (by simp [hw])]
      rfl
  have hmap : n.map normStep = n := by
    rw [List.map_congr_left hstep, List.map_id]
  rw [hmap]
  have hsp : ∀ c ∈ n, isSpaceJS c = true → c = ' ' := by
    intro c hc hspace
    rcases hchar c hc with rfl | ⟨hw, _⟩
    · rfl
    · rw [word_not_space hw] at hspace
      cases hspace
  rw [collapse_fixed n hsp hadj]
  exact trimJS_fixed hh hl

/-- The normaliser is idempotent. -/
theorem normalizeForMatch_idem (s : Str) :
    normalizeForMatch (normalizeForMatch s) = normalizeForMatch s :=
  normOut_fixed (normalize_normOut s)

/-!
Invariants of the intent scan: every confidence the resolver stores is a
proper score (positive denominator, value in [0, 1]).
-/

theorem wordOverlapScore_proper (iw pw : List Str) :
    (wordOverlapScore iw pw).Proper := by
  rw [wordOverlapScore]
  by_cases h : iw.length = 0
  · rw [if_pos h]
    exact q_proper (by omega) (by omega)
  · rw [if_neg h]
    refine ⟨?_, ?_⟩
    · show 0 < iw.length
      omega
    · exact List.countP_le_length _

theorem phraseMatchScore_proper (input pn : Str) :
    (phraseMatchScore input pn).Proper := by
  rw [phraseMatchScore]
  split
  · exact fmax_proper (wordOverlapScore_proper _ _) (stringSimilarity_proper _ _)
  · exact fmax_proper (wordOverlapScore_proper _ _) (stringSimilarity_proper _ _)

/-- Properness of an optional best candidate. -/
def bestProper : Option BestIntent → Prop
  | none => True
  | some b => b.confidence.Proper

/-- The literal-match update of the phrase loop, as a function (used only to
phrase lemmas; `scanPhrases` unfolds to exactly this step). -/
def literalStep (intent : Intent) (conf : Frac) : Option BestIntent → Option BestIntent
  | none => some ⟨intent, conf⟩
  | some b => if flt b.confidence conf then some ⟨intent, conf⟩ else some b

theorem literalStep_proper {intent : Intent} {conf : Frac} (hconf : conf.Proper)
    {best : Option BestIntent} (h : bestProper best) :
    bestProper (literalStep intent conf best) := by
  cases best with
  | none => exact hconf
  | some b =>
    show bestProper (if flt b.confidence conf then some ⟨intent, conf⟩ else some b)
    split
    · exact hconf
    · exact h

theorem scanPhrases_proper (input : Str) (intent : Intent) :
    ∀ (ps : List Str) (best : Option BestIntent), bestProper best →
      bestProper (scanPhrases input intent best ps)
  | [], best, h => h
  | p :: ps, best, h => by
    simp only [scanPhrases]
    split
    · have hconf :
          (if (normalizeForMatch p == input) = true then q 1 1 else q 9 10).Proper := by
        split
        · exact q_proper (by omega) (by omega)
        · exact q_proper (by omega) (by omega)
      exact literalStep_proper hconf h
    · apply scanPhrases_proper input intent ps
      split
      · exact fmin_proper (phraseMatchScore_proper _ _) (q_proper (by omega) (by omega))
      · exact h

theorem findBestIntent_proper (input : Str) (intents : List Intent) :
    bestProper (findBestIntent input intents) := by
  rw [findBestIntent]
  have hgen :
      ∀ (l : List Intent) (best : Option BestIntent), bestProper best →
        bestProper (l.foldl
          (fun best i => scanPhrases input i best i.trainingPhrases) best) := by
    intro l
    induction l with
    | nil => exact fun best h => h
    | cons i rest ih =>
      intro best h
      exact ih _ (scanPhrases_proper input i _ best h)
  exact hgen intents none trivial

/-- Record of the result invariant: bounded confidence, intent only from the
intent path, fallback only when neither the intent scan nor the knowledge scan
produced anything (and then with zero confidence and no intent). -/
def ResultInv (intents : List Intent) (kbItems : List KbItem) (message : Str)
    (r : BotResponseResult) : Prop :=
  r.confidence.Proper ∧
  (r.intent ≠ none → r.source = Source.intent) ∧
  (r.source = Source.fallback →
    findBestIntent (normalizeForMatch message) intents = none ∧
    findKbChunk (getWords (normalizeForMatch message) 2 false) kbItems = none ∧
    r.confidence = q 0 1 ∧ r.intent = none)

theorem getBotResponse_inv (bot : Bot) (intents : List Intent)
    (kbItems : List KbItem) (pick : Nat) (message : Str) :
    ResultInv intents kbItems message
      (getBotResponse bot intents kbItems pick message) := by
  have hp := findBestIntent_proper (normalizeForMatch message) intents
  rw [ResultInv]
  simp only [getBotResponse]
  cases hbi : findBestIntent (normalizeForMatch message) intents with
  | some best =>
    rw [hbi] at hp
    dsimp only
    exact ⟨hp, fun _ => rfl, fun h => nomatch h⟩
  | none =>
    cases hkb : findKbChunk (getWords (normalizeForMatch message) 2 false) kbItems with
    | some pr =>
      obtain ⟨title, ch⟩ := pr
      dsimp only
      exact ⟨q_proper (by omega) (by omega), fun h => absurd rfl h, fun h => nomatch h⟩
    | none =>
      dsimp only
      exact ⟨q_proper (by omega) (by omega), fun h => absurd rfl h,
        fun _ => ⟨rfl, rfl, rfl, rfl⟩⟩

theorem generateLLMResponse_shape (env : LLMEnv) :
    ((generateLLMResponse env).confidence = q 0 1 ∨
      (generateLLMResponse env).confidence = q 19 20 ∨
      (generateLLMResponse env).confidence = q 3 10) ∧
    (generateLLMResponse env).source = Source.llm_generation := by
  obtain ⟨g, r⟩ := env
  cases g with
  | none =>
    cases r with
    | none => exact ⟨Or.inl rfl, rfl⟩
    | some ro =>
      cases ro with
      | none => exact ⟨Or.inr (Or.inr rfl), rfl⟩
      | some t => exact ⟨Or.inr (Or.inl rfl), rfl⟩
  | some go =>
    cases go with
    | none =>
      cases r with
      | none => exact ⟨Or.inr (Or.inr rfl), rfl⟩
      | some ro =>
        cases ro with
        | none => exact ⟨Or.inr (Or.inr rfl), rfl⟩
        | some t => exact ⟨Or.inr (Or.inl rfl), rfl⟩
    | some t =>
      cases r with
      | none => exact ⟨Or.inr (Or.inl rfl), rfl⟩
      | some ro =>
        cases ro with
        | none => exact ⟨Or.inr (Or.inl rfl), rfl⟩
        | some u => exact ⟨Or.inr (Or.inl rfl), rfl⟩

theorem mapLLM_inv (intents : List Intent) (kbItems : List KbItem) (message : Str)
    (env : LLMEnv) :
    ResultInv intents kbItems message
      (mapLLMToRouterResult (generateLLMResponse env)) := by
  have hs := generateLLMResponse_shape env
  refine ⟨?_, fun h => absurd rfl h, fun h => nomatch h⟩
  rcases hs.1 with h | h | h <;>
    · show (generateLLMResponse env).confidence.Proper
      rw [h]
      exact q_proper (by omega) (by omega)

theorem routeAndRespond_inv (bot : Bot) (intents : List Intent)
    (kbItems : List KbItem) (env : LLMEnv) (pick : Nat) (message : Str) :
    ResultInv intents kbItems message
      (routeAndRespond bot intents kbItems env pick message).result := by
  simp only [routeAndRespond]
  split
  · exact getBotResponse_inv bot intents kbItems pick message
  · split
    · exact getBotResponse_inv bot intents kbItems pick message
    · split
      · split
        · exact mapLLM_inv intents kbItems message env
        · exact getBotResponse_inv bot intents kbItems pick message
      · split
        · exact getBotResponse_inv bot intents kbItems pick message
        · exact mapLLM_inv intents kbItems message env

/-- C1.  Every result of the resolution engine, whether produced directly by
`getBotResponse` or through `routeAndRespond` in any mode, satisfies the data
model invariant: the confidence value lies in [0, 1]; the source is `fallback`
only when neither the intent scan nor the knowledge scan produced output, and
then the confidence is 0 and the intent is null; and the intent field is
non-null only when the source is `intent`. -/
theorem C1_result_invariant (bot : Bot) (intents : List Intent)
    (kbItems : List KbItem) (env : LLMEnv) (pick : Nat) (message : Str) :
    (0 ≤ (getBotResponse bot intents kbItems pick message).confidence.val ∧
      (getBotResponse bot intents kbItems pick message).confidence.val ≤ 1 ∧
      ((getBotResponse bot intents kbItems pick message).intent ≠ none →
        (getBotResponse bot intents kbItems pick message).source = Source.intent) ∧
      ((getBotResponse bot intents kbItems pick message).source = Source.fallback →
        findBestIntent (normalizeForMatch message) intents = none ∧
        findKbChunk (getWords (normalizeForMatch message) 2 false) kbItems = none ∧
        (getBotResponse bot intents kbItems pick message).confidence.val = 0 ∧
        (getBotResponse bot intents kbItems pick message).intent = none)) ∧
    (0 ≤ (routeAndRespond bot intents kbItems env pick message).result.confidence.val ∧
      (routeAndRespond bot intents kbItems env pick message).result.confidence.val ≤ 1 ∧
      ((routeAndRespond bot intents kbItems env pick message).result.intent ≠ none →
        (routeAndRespond bot intents kbItems env pick message).result.source
          = Source.intent) ∧
      ((routeAndRespond bot intents kbItems env pick message).result.source
          = Source.fallback →
        findBestIntent (normalizeForMatch message) intents = none ∧
        findKbChunk (getWords (normalizeForMatch message) 2 false) kbItems = none ∧
        (routeAndRespond bot intents kbItems env pick message).result.confidence.val
          = 0 ∧
        (routeAndRespond bot intents kbItems env pick message).result.intent
          = none)) := by
  have h1 := getBotResponse_inv bot intents kbItems pick message
  have h2 := routeAndRespond_inv bot intents kbItems env pick message
  obtain ⟨h1p, h1i, h1f⟩ := h1
  obtain ⟨h2p, h2i, h2f⟩ := h2
  have hz : (q 0 1).val = 0 := by
    rw [q, Frac.val]
    norm_num
  refine ⟨⟨Frac.val_nonneg _, h1p.val_le_one, h1i, fun h => ?_⟩,
    ⟨Frac.val_nonneg _, h2p.val_le_one, h2i, fun h => ?_⟩⟩
  · obtain ⟨ha, hb, hc, hd⟩ := h1f h
    exact ⟨ha, hb, by rw [hc, hz], hd⟩
  · obtain ⟨ha, hb, hc, hd⟩ := h2f h
    exact ⟨ha, hb, by rw [hc, hz], hd⟩

/-- C9.  The text normaliser is idempotent, and the similarity scorer
satisfies `similarity(a,b) = 1 - levenshtein(a,b) / max(|a|,|b|)`, lies in
[0, 1], equals 1 on identical strings, equals 0 on `("", "x")`, and is
symmetric. -/
theorem C9_normalizer_similarity_properties :
    (∀ s : Str, normalizeForMatch (normalizeForMatch s) = normalizeForMatch s) ∧
    (∀ a b : Str, (stringSimilarity a b).val
        = 1 - (levenshtein a b : ℚ) / ((max a.length b.length : ℕ) : ℚ)) ∧
    (∀ a b : Str,
      0 ≤ (stringSimilarity a b).val ∧ (stringSimilarity a b).val ≤ 1) ∧
    (∀ a : Str, (stringSimilarity a a).val = 1) ∧
    (stringSimilarity (str "") (str "x")).val = 0 ∧
    (∀ a b : Str, stringSimilarity a b = stringSimilarity b a) := by
  refine ⟨normalizeForMatch_idem, stringSimilarity_val, ?_, ?_, ?_,
    stringSimilarity_comm⟩
  · intro a b
    exact ⟨Frac.val_nonneg _, (stringSimilarity_proper a b).val_le_one⟩
  · intro a
    have h : stringSimilarity a a = q 1 1 := by
      rw [stringSimilarity, if_pos rfl]
    rw [h, q, Frac.val]
    norm_num
  · have h : stringSimilarity (str "") (str "x") = q 0 1 := by decide
    rw [h, q, Frac.val]
    norm_num

/-!
Router policies.
-/

theorem q_val_half : (q 1 2).val = 1 / 2 := by
  rw [q, Frac.val]
  norm_num

/-- C5.  When neither generative provider is configured, the router returns
exactly the Intent Resolver's result for every bot whose mode is llm_first or
hybrid, never invoking the Generative Responder. -/
theorem C5_degrade_to_intent_without_provider (bot : Bot) (intents : List Intent)
    (kbItems : List KbItem) (env : LLMEnv) (pick : Nat) (message : Str)
    (h1 : isLLMAvailable env = false)
    (h2 : bot.config.aiMode.getD AiMode.intent_only = AiMode.llm_first ∨
      bot.config.aiMode.getD AiMode.intent_only = AiMode.hybrid) :
    (routeAndRespond bot intents kbItems env pick message).result
        = getBotResponse bot intents kbItems pick message ∧
    (routeAndRespond bot intents kbItems env pick message).llmCalls = 0 ∧
    (routeAndRespond bot intents kbItems env pick message).nlpCalls = 1 := by
  have hmode : ¬bot.config.aiMode.getD AiMode.intent_only = AiMode.intent_only := by
    rcases h2 with h | h <;> rw [h] <;> intro hc <;> cases hc
  have hnl : (!isLLMAvailable env) = true := by
    rw [h1]
    decide
  simp only [routeAndRespond, if_neg hmode, if_pos hnl]
  refine ⟨?_, ?_, ?_⟩ <;> first | rfl | trivial

/-- C3.  In hybrid mode with a provider available, the router invokes the
Intent Resolver exactly once and returns its result precisely when its
confidence reaches the configured threshold (default 0.7) and its source is
not fallback; otherwise the Generative Responder is invoked exactly once and
its result is returned.  The threshold denominator condition states that the
configured threshold is a genuine number. -/
theorem C3_hybrid_policy (bot : Bot) (intents : List Intent) (kbItems : List KbItem)
    (env : LLMEnv) (pick : Nat) (message : Str)
    (hm : bot.config.aiMode.getD AiMode.intent_only = AiMode.hybrid)
    (hl : isLLMAvailable env = true)
    (hd : 0 < (bot.config.confidenceThreshold.getD (q 7 10)).den) :
    (routeAndRespond bot intents kbItems env pick message).nlpCalls = 1 ∧
    (((bot.config.confidenceThreshold.getD (q 7 10)).val
          ≤ (getBotResponse bot intents kbItems pick message).confidence.val ∧
        (getBotResponse bot intents kbItems pick message).source ≠ Source.fallback) →
      (routeAndRespond bot intents kbItems env pick message).result
          = getBotResponse bot intents kbItems pick message ∧
      (routeAndRespond bot intents kbItems env pick message).llmCalls = 0) ∧
    (¬((bot.config.confidenceThreshold.getD (q 7 10)).val
          ≤ (getBotResponse bot intents kbItems pick message).confidence.val ∧
        (getBotResponse bot intents kbItems pick message).source ≠ Source.fallback) →
      (routeAndRespond bot intents kbItems env pick message).result
          = mapLLMToRouterResult (generateLLMResponse env) ∧
      (routeAndRespond bot intents kbItems env pick message).llmCalls = 1) := by
  have hmode : ¬bot.config.aiMode.getD AiMode.intent_only = AiMode.intent_only := by
    rw [hm]
    intro hc
    cases hc
  have hmode2 : ¬bot.config.aiMode.getD AiMode.intent_only = AiMode.llm_first := by
    rw [hm]
    intro hc
    cases hc
  have hprop := (getBotResponse_inv bot intents kbItems pick message).1
  have hcond :
      (fle (bot.config.confidenceThreshold.getD (q 7 10))
          (getBotResponse bot intents kbItems pick message).confidence
        && !((getBotResponse bot intents kbItems pick message).source
              == Source.fallback)) = true
        ↔ ((bot.config.confidenceThreshold.getD (q 7 10)).val
            ≤ (getBotResponse bot intents kbItems pick message).confidence.val ∧
          (getBotResponse bot intents kbItems pick message).source
            ≠ Source.fallback) := by
    rw [Bool.and_eq_true, fle_iff hd hprop.1, Bool.not_eq_true', beq_eq_false_iff_ne]
  have hnl : ¬(!isLLMAvailable env) = true := by
    rw [hl]
    decide
  simp only [routeAndRespond, if_neg hmode, if_neg hnl, if_neg hmode2]
  by_cases hc :
      (fle (bot.config.confidenceThreshold.getD (q 7 10))
          (getBotResponse bot intents kbItems pick message).confidence
        && !((getBotResponse bot intents kbItems pick message).source
              == Source.fallback)) = true
  · rw [if_pos hc]
    exact ⟨rfl, fun _ => ⟨rfl, rfl⟩, fun h => absurd (hcond.mp hc) h⟩
  · rw [if_neg hc]
    refine ⟨rfl, fun h => absurd (hcond.mpr h) hc, fun _ => ⟨rfl, rfl⟩⟩

/-- C4.  In llm_first mode with a provider available, the Generative Responder
is always invoked first; its result is returned whenever its confidence is at
least 0.5 or the bot disables fallback-to-intent (in particular the Intent
Resolver is then never invoked, even at generative confidence 0.3); otherwise
the Intent Resolver is invoked and its result is returned. -/
theorem C4_llm_first_policy (bot : Bot) (intents : List Intent) (kbItems : List KbItem)
    (env : LLMEnv) (pick : Nat) (message : Str)
    (hm : bot.config.aiMode.getD AiMode.intent_only = AiMode.llm_first)
    (hl : isLLMAvailable env = true) :
    (routeAndRespond bot intents kbItems env pick message).llmCalls = 1 ∧
    ((1 / 2 ≤ (generateLLMResponse env).confidence.val ∨
        (bot.config.aiConfig.getD ⟨none⟩).fallbackToIntent = some false) →
      (routeAndRespond bot intents kbItems env pick message).result
          = mapLLMToRouterResult (generateLLMResponse env) ∧
      (routeAndRespond bot intents kbItems env pick message).nlpCalls = 0) ∧
    (((generateLLMResponse env).confidence.val < 1 / 2 ∧
        (bot.config.aiConfig.getD ⟨none⟩).fallbackToIntent ≠ some false) →
      (routeAndRespond bot intents kbItems env pick message).result
          = getBotResponse bot intents kbItems pick message ∧
      (routeAndRespond bot intents kbItems env pick message).nlpCalls = 1) := by
  have hmode : ¬bot.config.aiMode.getD AiMode.intent_only = AiMode.intent_only := by
    rw [hm]
    intro hc
    cases hc
  have hgprop : (generateLLMResponse env).confidence.Proper := by
    rcases (generateLLMResponse_shape env).1 with h | h | h <;>
      · rw [h]
        exact ⟨by decide, by decide⟩
  have hcond :
      (fle (q 1 2) (generateLLMResponse env).confidence
          || !((bot.config.aiConfig.getD ⟨none⟩).fallbackToIntent != some false)) = true
        ↔ (1 / 2 ≤ (generateLLMResponse env).confidence.val ∨
            (bot.config.aiConfig.getD ⟨none⟩).fallbackToIntent = some false) := by
    rw [Bool.or_eq_true, fle_iff (by decide) hgprop.1, q_val_half,
      Bool.not_eq_true', bne_eq_false_iff_eq]
  have hnl : ¬(!isLLMAvailable env) = true := by
    rw [hl]
    decide
  simp only [routeAndRespond, if_neg hmode, if_neg hnl, if_pos hm]
  by_cases hc :
      (fle (q 1 2) (generateLLMResponse env).confidence
        || !((bot.config.aiConfig.getD ⟨none⟩).fallbackToIntent != some false)) = true
  · rw [if_pos hc]
    refine ⟨rfl, fun _ => ⟨rfl, rfl⟩, fun h => ?_⟩
    rcases hcond.mp hc with h' | h'
    · exact absurd h' (not_le.mpr h.1)
    · exact absurd h' h.2
  · rw [if_neg hc]
    refine ⟨rfl, fun h => absurd (hcond.mpr h) hc, fun _ => ⟨rfl, rfl⟩⟩

/-- C6.  With at least one provider configured, generation calls the primary
(Gemini) exactly when it is configured; a null primary outcome (failure,
empty completion or absence) falls through to the secondary (Groq); a
successful completion from either is returned with fixed confidence 0.95 and
source llm_generation; when both fail the fixed apology is returned with
confidence 0.3.  The function is total, hence never throws. -/
theorem C6_generation_fallback_chain (env : LLMEnv)
    (h : isLLMAvailable env = true) :
    (generateLLMResponseTr env).2.1 = env.gemini.isSome ∧
    (∀ t, env.gemini = some (some t) →
      generateLLMResponseTr env
        = (⟨t, q 19 20, Source.llm_generation⟩, true, false)) ∧
    (∀ t, (env.gemini = none ∨ env.gemini = some none) →
      env.groq = some (some t) →
      (generateLLMResponseTr env).1 = ⟨t, q 19 20, Source.llm_generation⟩ ∧
      (generateLLMResponseTr env).2.2 = true) ∧
    ((env.gemini = none ∨ env.gemini = some none) →
      (env.groq = none ∨ env.groq = some none) →
      (generateLLMResponseTr env).1 = ⟨llmApology, q 3 10, Source.llm_generation⟩) ∧
    (generateLLMResponse env).source = Source.llm_generation := by
  obtain ⟨g, r⟩ := env
  refine ⟨?_, ?_, ?_, ?_, ((generateLLMResponse_shape ⟨g, r⟩).2)⟩
  · cases g with
    | none =>
      cases r with
      | none => cases h
      | some ro => cases ro <;> rfl
    | some go =>
      cases go with
      | none =>
        cases r with
        | none => rfl
        | some ro => cases ro <;> rfl
      | some t => rfl
  · intro t ht
    cases g with
    | none => cases ht
    | some go =>
      cases go with
      | none => cases ht
      | some u =>
        obtain rfl : t = u := by
          injection ht with h1
          injection h1 with h2
          exact h2.symm
        rfl
  · intro t hg hr
    subst hr
    rcases hg with hg | hg <;> subst hg <;> exact ⟨rfl, rfl⟩
  · intro hg hr
    rcases hg with hg | hg <;> rcases hr with hr | hr <;> subst hg <;> subst hr
    · cases h
    · rfl
    · rfl
    · rfl

/-!
Lexical knowledge retriever.
-/

/-- All (title, chunk) pairs of the knowledge items in storage order. -/
def kbPairs (items : List KbItem) : List (Option Str × KbChunk) :=
  items.flatMap (fun item => item.chunks.map (fun ch => (item.title, ch)))

theorem findKbChunk_eq_find? (iw : List Str) :
    ∀ items : List KbItem,
      findKbChunk iw items
        = (kbPairs items).find? (fun pr => kbAccepts iw pr.2)
  | [] => rfl
  | item :: items => by
    rw [findKbChunk, kbPairs, List.flatMap_cons, List.find?_append, List.find?_map]
    have hcomp :
        ((fun pr : Option Str × KbChunk => kbAccepts iw pr.2)
            ∘ fun ch => (item.title, ch)) = kbAccepts iw := by
      funext ch
      rfl
    rw [hcomp]
    cases hfind : item.chunks.find? (kbAccepts iw) with
    | some ch => rfl
    | none =>
      simp only [Option.map_none', Option.none_or]
      have h := findKbChunk_eq_find? iw items
      rw [← kbPairs, h]

/-- The acceptance test of the knowledge scan is exactly the
`min(2, tokenCount)` bar of the specification (the one-token disjunct of the
code is subsumed by it). -/
theorem kbAccepts_iff_min (iw : List Str) (ch : KbChunk) :
    kbAccepts iw ch = true ↔
      min 2 iw.length ≤ iw.countP
        (kbTokenHit (ch.text.map toLowerJS)
          (getWords ((ch.text.map toLowerJS).map stripPunct) 2 false)) := by
  simp only [kbAccepts, Bool.or_eq_true, decide_eq_true_eq, Bool.and_eq_true,
    beq_iff_eq]
  omega

/-- C7.  With no intent match, the lexical knowledge retriever accepts a chunk
exactly when at least `min(2, queryTokenCount)` of the query tokens (length at
least 2) occur literally in the lowercased chunk text or have a chunk word
0.75-similar to them; the scan returns the first accepted chunk in storage
order; and the result is returned with confidence exactly 0.7 and source
knowledge_base (with the item title and the 400-character snippet). -/
theorem C7_lexical_retriever (bot : Bot) (intents : List Intent)
    (kbItems : List KbItem) (pick : Nat) (message : Str)
    (hno : findBestIntent (normalizeForMatch message) intents = none) :
    (∀ ch : KbChunk,
      kbAccepts (getWords (normalizeForMatch message) 2 false) ch = true ↔
        min 2 (getWords (normalizeForMatch message) 2 false).length
          ≤ (getWords (normalizeForMatch message) 2 false).countP
              (kbTokenHit (ch.text.map toLowerJS)
                (getWords ((ch.text.map toLowerJS).map stripPunct) 2 false))) ∧
    findKbChunk (getWords (normalizeForMatch message) 2 false) kbItems
      = (kbPairs kbItems).find?
          (fun pr => kbAccepts (getWords (normalizeForMatch message) 2 false) pr.2) ∧
    (∀ (title : Option Str) (ch : KbChunk),
      findKbChunk (getWords (normalizeForMatch message) 2 false) kbItems
          = some (title, ch) →
      getBotResponse bot intents kbItems pick message
        = ⟨ch.text.take 400, none, q 7 10, Source.knowledge_base, title⟩ ∧
      (q 7 10).val = 7 / 10) := by
  refine ⟨fun ch => kbAccepts_iff_min _ ch, findKbChunk_eq_find? _ kbItems,
    fun title ch hfound => ⟨?_, by rw [q, Frac.val]; norm_num⟩⟩
  simp only [getBotResponse, hno, hfound]

/-!
Shape of the confidences selected by the intent scan, and stability of an
exact match.
-/

/-- Possible shapes of the running best candidate: a literal confidence (1 or
0.9), or a capped fuzzy confidence traceable to a training phrase of one of
the intents with accepted raw score. -/
def ConfShape (input : Str) (intents : List Intent) : Option BestIntent → Prop
  | none => True
  | some b =>
    b.confidence = q 1 1 ∨ b.confidence = q 9 10 ∨
      ∃ i ∈ intents, ∃ p ∈ i.trainingPhrases,
        fle (q 1 2) (phraseMatchScore input (normalizeForMatch p)) = true ∧
        b.confidence = fmin (phraseMatchScore input (normalizeForMatch p)) (q 22 25)

theorem literalStep_confShape {input : Str} {intents : List Intent}
    {intent : Intent} {conf : Frac} (hconf : conf = q 1 1 ∨ conf = q 9 10)
    {best : Option BestIntent} (h : ConfShape input intents best) :
    ConfShape input intents (literalStep intent conf best) := by
  cases best with
  | none =>
    show ConfShape input intents (some ⟨intent, conf⟩)
    rcases hconf with h' | h'
    · exact Or.inl h'
    · exact Or.inr (Or.inl h')
  | some b =>
    show ConfShape input intents
      (if flt b.confidence conf then some ⟨intent, conf⟩ else some b)
    split
    · rcases hconf with h' | h'
      · exact Or.inl h'
      · exact Or.inr (Or.inl h')
    · exact h

theorem scanPhrases_confShape (input : Str) (intents : List Intent)
    (intent : Intent) (hi : intent ∈ intents) :
    ∀ (ps : List Str), (∀ p ∈ ps, p ∈ intent.trainingPhrases) →
      ∀ (best : Option BestIntent), ConfShape input intents best →
        ConfShape input intents (scanPhrases input intent best ps)
  | [], _, best, h => h
  | p :: ps, hps, best, h => by
    simp only [scanPhrases]
    split
    · exact literalStep_confShape (by split <;> simp) h
    · apply scanPhrases_confShape input intents intent hi ps
        (fun r hr => hps r (List.mem_cons_of_mem _ hr))
      split
      · next hkeep =>
        have hfle : fle (q 1 2) (phraseMatchScore input (normalizeForMatch p)) = true := by
          have h2 := hkeep
          simp only [Bool.and_eq_true] at h2
          exact h2.1
        exact Or.inr (Or.inr ⟨intent, hi, p, hps p (by simp), hfle, rfl⟩)
      · exact h

theorem findBestIntent_confShape (input : Str) (intents : List Intent) :
    ConfShape input intents (findBestIntent input intents) := by
  rw [findBestIntent]
  have hgen :
      ∀ (l : List Intent), (∀ i ∈ l, i ∈ intents) →
        ∀ (best : Option BestIntent), ConfShape input intents best →
          ConfShape input intents (l.foldl
            (fun best i => scanPhrases input i best i.trainingPhrases) best) := by
    intro l
    induction l with
    | nil => exact fun _ best h => h
    | cons i rest ih =>
      intro hmem best h
      exact ih (fun j hj => hmem j (List.mem_cons_of_mem _ hj)) _
        (scanPhrases_confShape input intents i (hmem i (by simp))
          i.trainingPhrases (fun _ hp => hp) best h)
  exact hgen intents (fun _ h => h) none trivial

theorem flt_one_false {s : Frac} (hs : s.Proper) : flt (q 1 1) s = false := by
  rw [flt]
  simp only [decide_eq_false_iff_not, not_lt]
  have := hs.2
  show s.num * (q 1 1).den ≤ (q 1 1).num * s.den
  simp only [q]
  omega

theorem scanPhrases_exact_stable (input : Str) (intent : Intent) (b0 : BestIntent)
    (hb : b0.confidence = q 1 1) :
    ∀ ps : List Str, scanPhrases input intent (some b0) ps = some b0
  | [] => rfl
  | p :: ps => by
    simp only [scanPhrases]
    split
    · show literalStep intent _ (some b0) = some b0
      rw [literalStep]
      have hflt :
          flt b0.confidence
            (if (normalizeForMatch p == input) = true then q 1 1 else q 9 10) = false := by
        rw [hb]
        split
        · decide
        · decide
      rw [hflt]
      simp
    · have hkeep :
          (fle (q 1 2) (phraseMatchScore input (normalizeForMatch p)) &&
            flt b0.confidence (phraseMatchScore input (normalizeForMatch p))) = false := by
        rw [hb, flt_one_false (phraseMatchScore_proper _ _), Bool.and_false]
      show scanPhrases input intent
        (if (fle (q 1 2) (phraseMatchScore input (normalizeForMatch p)) &&
            flt b0.confidence (phraseMatchScore input (normalizeForMatch p))) = true
          then some ⟨intent, fmin (phraseMatchScore input (normalizeForMatch p)) (q 22 25)⟩
          else some b0) ps = some b0
      rw [hkeep]
      simp only [Bool.false_eq_true, if_false]
      exact scanPhrases_exact_stable input intent b0 hb ps

theorem foldScan_exact_stable (input : Str) (b0 : BestIntent)
    (hb : b0.confidence = q 1 1) :
    ∀ suf : List Intent,
      suf.foldl (fun best i => scanPhrases input i best i.trainingPhrases) (some b0)
        = some b0
  | [] => rfl
  | i :: suf => by
    rw [List.foldl_cons, scanPhrases_exact_stable input i b0 hb]
    exact foldScan_exact_stable input b0 hb suf

theorem fmin_le_right_val {x y : Frac} (hx : x.Proper) (hy : y.Proper) :
    (fmin x y).val ≤ y.val := by
  rw [fmin]
  by_cases h : fle x y = true
  · rw [if_pos h]
    exact (fle_iff hx.1 hy.1).mp h
  · rw [if_neg h]

/-- C2 (amended).  An accepted fuzzy match is assigned confidence
`min(score, 0.88)`, so every fuzzy-selected confidence is at most 0.88 and an
exact match (confidence 1.0), once recorded, is never displaced by any later
phrase; however the acceptance comparison uses the raw (uncapped) score
against the stored confidence, so a later fuzzy match whose raw score exceeds
the stored 0.9 of a substring match (or the stored 0.88 of an earlier capped
fuzzy match) replaces it — a fuzzy match can therefore outrank a literal
substring match, as the counterexample shows. -/
theorem C2_fuzzy_cap_and_exact_stability (input : Str) (intents : List Intent) :
    (∀ b : BestIntent, findBestIntent input intents = some b →
      b.confidence = q 1 1 ∨ b.confidence = q 9 10 ∨
        ((∃ i ∈ intents, ∃ p ∈ i.trainingPhrases,
          fle (q 1 2) (phraseMatchScore input (normalizeForMatch p)) = true ∧
          b.confidence
            = fmin (phraseMatchScore input (normalizeForMatch p)) (q 22 25)) ∧
          b.confidence.val ≤ 22 / 25)) ∧
    (∀ (pre suf : List Intent) (b : BestIntent), intents = pre ++ suf →
      findBestIntent input pre = some b → b.confidence = q 1 1 →
      findBestIntent input intents = some b) := by
  constructor
  · intro b hb
    have hshape := findBestIntent_confShape input intents
    rw [hb] at hshape
    rcases hshape with h | h | ⟨i, hi, p, hp, hfle, hconf⟩
    · exact Or.inl h
    · exact Or.inr (Or.inl h)
    · refine Or.inr (Or.inr ⟨⟨i, hi, p, hp, hfle, hconf⟩, ?_⟩)
      rw [hconf]
      have hle := fmin_le_right_val (phraseMatchScore_proper input (normalizeForMatch p))
        (show (q 22 25).Proper from ⟨by decide, by decide⟩)
      have hv : (q 22 25).val = 22 / 25 := by
        rw [q, Frac.val]
        norm_num
      rw [hv] at hle
      exact hle
  · intro pre suf b hsplit hpre hconf
    rw [hsplit, findBestIntent, List.foldl_append]
    rw [findBestIntent] at hpre
    rw [hpre]
    exact foldScan_exact_stable input b hconf suf

/-- C2 counterexample: the first (higher-priority) intent has a phrase that
literally substring-matches the input (which stores confidence 0.9), yet the
resolver selects the second intent through a fuzzy match capped at 0.88 —
because the raw fuzzy score 1.0 is compared against the stored 0.9.  A fuzzy
match therefore outranks a literal substring match, contradicting the claim. -/
theorem C2_counterexample :
    literalMatch (normalizeForMatch (str "ab cd ef"))
        (normalizeForMatch (str "ab cd")) = true ∧
    (normalizeForMatch (str "ab cd")) ≠ (normalizeForMatch (str "ab cd ef")) ∧
    (getBotResponse ⟨⟨none, none, none, none⟩⟩
        [⟨str "i1", [str "ab cd"], []⟩, ⟨str "i2", [str "ef cd ab"], []⟩] [] 0
        (str "ab cd ef")).intent = some (str "i2") ∧
    (getBotResponse ⟨⟨none, none, none, none⟩⟩
        [⟨str "i1", [str "ab cd"], []⟩, ⟨str "i2", [str "ef cd ab"], []⟩] [] 0
        (str "ab cd ef")).confidence = q 22 25 := by
  refine ⟨by decide, by decide, ?_, ?_⟩ <;> decide

/-!
Behaviour on an input that normalises to the empty string: every intent with
at least one training phrase matches literally (the empty string is contained
in every phrase), so each intent's first phrase is examined.
-/

theorem literalMatch_empty (pn : Str) : literalMatch ([] : Str) pn = true := by
  rw [literalMatch]
  cases pn with
  | nil => rfl
  | cons c t =>
    have h : includesJS ([] : Str) (c :: t) = true := by
      rw [includesJS]
      simp [List.isPrefixOf]
    simp [h]

/-- Some intent of the list has a first training phrase that normalises to
the empty string. -/
def HasEmptyFirstPhrase (l : List Intent) : Prop :=
  ∃ i ∈ l, ∃ p, i.trainingPhrases.head? = some p ∧ normalizeForMatch p = []

/-- State invariant of the scan on an empty normalised input. -/
def EmptyState (processed : List Intent) : Option BestIntent → Prop
  | none => ∀ j ∈ processed, j.trainingPhrases = []
  | some b =>
    (b.confidence = q 9 10 ∨ b.confidence = q 1 1) ∧
      (b.confidence = q 1 1 ↔ HasEmptyFirstPhrase processed)

theorem hasEmpty_append_singleton (l : List Intent) (i : Intent) :
    HasEmptyFirstPhrase (l ++ [i]) ↔
      HasEmptyFirstPhrase l ∨
        ∃ p, i.trainingPhrases.head? = some p ∧ normalizeForMatch p = [] := by
  rw [HasEmptyFirstPhrase, HasEmptyFirstPhrase]
  constructor
  · rintro ⟨j, hj, p, hp, hn⟩
    rcases List.mem_append.mp hj with hj | hj
    · exact Or.inl ⟨j, hj, p, hp, hn⟩
    · rw [List.mem_singleton] at hj
      subst hj
      exact Or.inr ⟨p, hp, hn⟩
  · rintro (⟨j, hj, p, hp, hn⟩ | ⟨p, hp, hn⟩)
    · exact ⟨j, List.mem_append.mpr (Or.inl hj), p, hp, hn⟩
    · exact ⟨i, List.mem_append.mpr (Or.inr (List.mem_singleton.mpr rfl)), p, hp, hn⟩

theorem scanPhrases_empty_step (processed : List Intent) (i : Intent)
    (st : Option BestIntent) (h : EmptyState processed st) :
    EmptyState (processed ++ [i])
      (scanPhrases ([] : Str) i st i.trainingPhrases) := by
  cases hps : i.trainingPhrases with
  | nil =>
    show EmptyState (processed ++ [i]) st
    cases st with
    | none =>
      intro j hj
      rcases List.mem_append.mp hj with hj | hj
      · exact h j hj
      · rw [List.mem_singleton] at hj
        subst hj
        exact hps
    | some b =>
      obtain ⟨h1, h2⟩ := h
      refine ⟨h1, ?_⟩
      rw [h2, hasEmpty_append_singleton]
      constructor
      · exact Or.inl
      · rintro (hx | ⟨p, hp, _⟩)
        · exact hx
        · rw [hps] at hp
          cases hp
  | cons p ps =>
    simp only [scanPhrases, if_pos (literalMatch_empty (normalizeForMatch p))]
    by_cases hpn : (normalizeForMatch p == ([] : Str)) = true
    · have hpn' : normalizeForMatch p = [] := by simpa using hpn
      rw [if_pos hpn]
      have hipart : ∃ p', i.trainingPhrases.head? = some p' ∧ normalizeForMatch p' = [] := by
        exact ⟨p, by rw [hps]; rfl, hpn'⟩
      cases st with
      | none =>
        refine ⟨Or.inr rfl, ?_⟩
        rw [hasEmpty_append_singleton]
        exact ⟨fun _ => Or.inr hipart, fun _ => rfl⟩
      | some b =>
        show EmptyState (processed ++ [i])
          (if flt b.confidence (q 1 1) = true then some ⟨i, q 1 1⟩ else some b)
        obtain ⟨h1, h2⟩ := h
        rcases h1 with h1 | h1
        · have hflt : flt b.confidence (q 1 1) = true := by
            rw [h1]
            decide
          rw [hflt]
          simp only [if_pos rfl]
          refine ⟨Or.inr rfl, ?_⟩
          rw [hasEmpty_append_singleton]
          exact ⟨fun _ => Or.inr hipart, fun _ => rfl⟩
        · have hflt : flt b.confidence (q 1 1) = false := by
            rw [h1]
            decide
          rw [hflt]
          simp only [Bool.false_eq_true, if_false]
          refine ⟨Or.inr h1, ?_⟩
          rw [hasEmpty_append_singleton]
          exact ⟨fun _ => Or.inr hipart, fun _ => h1⟩
    · have hpn' : normalizeForMatch p ≠ [] := by simpa using hpn
      rw [if_neg hpn]
      have hipart :
          ¬∃ p', i.trainingPhrases.head? = some p' ∧ normalizeForMatch p' = [] := by
        rintro ⟨p', hp', hn'⟩
        rw [hps] at hp'
        injection hp' with hpp
        subst hpp
        exact hpn' hn'
      cases st with
      | none =>
        have hleft : ¬HasEmptyFirstPhrase processed := by
          rintro ⟨j, hj, p', hp', hn'⟩
          rw [h j hj] at hp'
          cases hp'
        refine ⟨Or.inl rfl, ?_⟩
        rw [hasEmpty_append_singleton]
        constructor
        · intro hcon
          simp [q] at hcon
        · rintro (hx | hx)
          · exact absurd hx hleft
          · exact absurd hx hipart
      | some b =>
        show EmptyState (processed ++ [i])
          (if flt b.confidence (q 9 10) = true then some ⟨i, q 9 10⟩ else some b)
        obtain ⟨h1, h2⟩ := h
        have hflt : flt b.confidence (q 9 10) = false := by
          rcases h1 with h1 | h1 <;> rw [h1] <;> decide
        rw [hflt]
        simp only [Bool.false_eq_true, if_false]
        refine ⟨h1, ?_⟩
        rw [h2, hasEmpty_append_singleton]
        constructor
        · exact Or.inl
        · rintro (hx | hx)
          · exact hx
          · exact absurd hx hipart

theorem findBestIntent_empty_state (intents : List Intent) :
    EmptyState intents (findBestIntent ([] : Str) intents) := by
  rw [findBestIntent]
  have hgen :
      ∀ (suf processed : List Intent) (st : Option BestIntent),
        EmptyState processed st →
        EmptyState (processed ++ suf)
          (suf.foldl (fun best i => scanPhrases ([] : Str) i best i.trainingPhrases) st)
    := by
    intro suf
    induction suf with
    | nil =>
      intro processed st h
      simpa using h
    | cons i rest ih =>
      intro processed st h
      have hstep := scanPhrases_empty_step processed i st h
      have := ih (processed ++ [i]) _ hstep
      simpa [List.append_assoc] using this
  have h0 : EmptyState [] (none : Option BestIntent) := by
    intro j hj
    cases hj
  have := hgen intents [] none h0
  simpa using this

/-- C10 (amended).  For a bot with at least one active intent having at least
one training phrase, any utterance whose normalised form is the empty string
is matched by the literal containment rule against the first phrase of each
intent examined, so `getBotResponse` returns source `intent` with confidence
0.9 — or 1.0 exactly when the first training phrase of some active intent
itself normalises to the empty string (a later intent's empty-normalising
first phrase also yields 1.0, not only the first phrase examined). -/
theorem C10_empty_normalized_input (bot : Bot) (intents : List Intent)
    (kbItems : List KbItem) (pick : Nat) (message : Str)
    (hempty : normalizeForMatch message = [])
    (hphrase : ∃ i ∈ intents, i.trainingPhrases ≠ []) :
    (getBotResponse bot intents kbItems pick message).source = Source.intent ∧
    ((getBotResponse bot intents kbItems pick message).confidence = q 9 10 ∨
      (getBotResponse bot intents kbItems pick message).confidence = q 1 1) ∧
    ((getBotResponse bot intents kbItems pick message).confidence = q 1 1 ↔
      HasEmptyFirstPhrase intents) := by
  have hstate := findBestIntent_empty_state intents
  rw [getBotResponse, hempty]
  cases hbi : findBestIntent ([] : Str) intents with
  | none =>
    rw [hbi] at hstate
    obtain ⟨i, hi, hne⟩ := hphrase
    exact absurd (hstate i hi) hne
  | some b =>
    rw [hbi] at hstate
    obtain ⟨h1, h2⟩ := hstate
    exact ⟨rfl, h1, h2⟩

/-- C10 counterexample: the utterance "!!!" normalises to the empty string;
the first phrase examined ("hi", of the first intent) does not normalise to
the empty string, so the claim predicts confidence 0.9 — but a later intent's
phrase "!!!" normalises to the empty string and upgrades the exact-match
confidence to 1.0. -/
theorem C10_counterexample :
    (str "!!!") ≠ ([] : Str) ∧
    normalizeForMatch (str "!!!") = [] ∧
    normalizeForMatch (str "hi") ≠ [] ∧
    (getBotResponse ⟨⟨none, none, none, none⟩⟩
        [⟨str "greet", [str "hi"], []⟩, ⟨str "bang", [str "!!!"], []⟩] [] 0
        (str "!!!")).confidence = q 1 1 ∧
    (getBotResponse ⟨⟨none, none, none, none⟩⟩
        [⟨str "greet", [str "hi"], []⟩, ⟨str "bang", [str "!!!"], []⟩] [] 0
        (str "!!!")).source = Source.intent := by
  refine ⟨by decide, by decide, by decide, by decide, by decide⟩

/-!
Ingestion pipeline: splitter configuration and rate-limited sequential
embedding.
-/

theorem generateBatchEmbeddings_fst (embed : Str → List Int) :
    ∀ texts : List Str, (generateBatchEmbeddings embed texts).1 = texts.map embed
  | [] => rfl
  | [t] => rfl
  | t :: t' :: rest => by
    have h := generateBatchEmbeddings_fst embed (t' :: rest)
    simp only [generateBatchEmbeddings]
    rw [h]
    simp

theorem generateBatchEmbeddings_trace (embed : Str → List Int) :
    ∀ texts : List Str,
      (generateBatchEmbeddings embed texts).2
        = (texts.map EmbedEvent.call).intersperse (EmbedEvent.wait RATE_LIMIT_DELAY_MS)
  | [] => rfl
  | [t] => rfl
  | t :: t' :: rest => by
    have h := generateBatchEmbeddings_trace embed (t' :: rest)
    simp only [generateBatchEmbeddings, List.map_cons, List.intersperse]
    rw [h]
    simp

/-- C8.  The ingestion splitter is configured with target chunk size 1000 and
overlap 200 over the recursive separator cascade (paragraph, line, sentence,
clause, word, character); every chunk is embedded sequentially in order (the
batch loop maps the provider over the chunks one at a time), with exactly one
fixed `RATE_LIMIT_DELAY_MS` pause between consecutive provider calls and no
parallelism (the event trace is the calls in chunk order interspersed with
the fixed delays); and the chunk/embedding pairs are what is upserted into
the per-bot collection.  The splitter algorithm itself is the external
langchain library; the repository fixes only its configuration. -/
theorem C8_ingestion_chunking_and_sequential_embedding
    (split : SplitterConfig → Str → List Str) (embed : Str → List Int)
    (text : Str) :
    textSplitter.chunkSize = 1000 ∧
    textSplitter.chunkOverlap = 200 ∧
    textSplitter.separators
      = [str "\n\n", str "\n", str ". ", str "! ", str "? ", str "; ",
         str ", ", str " ", str ""] ∧
    (∀ texts : List Str,
      (generateBatchEmbeddings embed texts).1 = texts.map embed) ∧
    (∀ texts : List Str,
      (generateBatchEmbeddings embed texts).2
        = (texts.map EmbedEvent.call).intersperse
            (EmbedEvent.wait RATE_LIMIT_DELAY_MS)) ∧
    processAndStoreDocument split embed text
      = (split textSplitter text).zip ((split textSplitter text).map embed) := by
  refine ⟨rfl, rfl, rfl, generateBatchEmbeddings_fst embed,
    generateBatchEmbeddings_trace embed, ?_⟩
  rw [processAndStoreDocument]
  rw [generateBatchEmbeddings_fst]

/-!
Witness instances.
-/

/-- A bot with an entirely default configuration. -/
def wBotPlain : Bot := ⟨⟨none, none, none, none⟩⟩

/-- A bot configured in hybrid mode. -/
def wBotHybrid : Bot := ⟨⟨some AiMode.hybrid, none, none, none⟩⟩

/-- A bot configured llm_first with fallback-to-intent disabled. -/
def wBotLLMNoFb : Bot := ⟨⟨some AiMode.llm_first, some ⟨some false⟩, none, none⟩⟩

/-- A bot configured llm_first with default aiConfig. -/
def wBotLLM : Bot := ⟨⟨some AiMode.llm_first, none, none, none⟩⟩

/-- An intent with the single training phrase "ab". -/
def wIntent : Intent := ⟨str "i", [str "ab"], []⟩

/-- A knowledge item with one chunk. -/
def wKbItem : KbItem := ⟨some (str "Doc"), [⟨str "We offer many courses online."⟩]⟩

theorem C3_hybrid_policy_witness :
    (routeAndRespond wBotHybrid [] [] ⟨some none, some none⟩ 0 (str "hi")).result
        = mapLLMToRouterResult (generateLLMResponse ⟨some none, some none⟩) ∧
    (routeAndRespond wBotHybrid [] [] ⟨some none, some none⟩ 0 (str "hi")).llmCalls
        = 1 :=
  (C3_hybrid_policy wBotHybrid [] [] ⟨some none, some none⟩ 0 (str "hi")
      (by decide) (by decide) (by decide)).2.2
    (fun hc => hc.2 (by decide))

theorem C4_llm_first_policy_witness :
    (routeAndRespond wBotLLMNoFb [] [] ⟨some none, some none⟩ 0 (str "hi")).result
        = mapLLMToRouterResult (generateLLMResponse ⟨some none, some none⟩) ∧
    (routeAndRespond wBotLLMNoFb [] [] ⟨some none, some none⟩ 0 (str "hi")).nlpCalls
        = 0 ∧
    (generateLLMResponse ⟨some none, some none⟩).confidence = q 3 10 :=
  ⟨((C4_llm_first_policy wBotLLMNoFb [] [] ⟨some none, some none⟩ 0 (str "hi")
        (by decide) (by decide)).2.1 (Or.inr (by decide))).1,
    ((C4_llm_first_policy wBotLLMNoFb [] [] ⟨some none, some none⟩ 0 (str "hi")
        (by decide) (by decide)).2.1 (Or.inr (by decide))).2,
    by decide⟩

theorem C5_degrade_to_intent_witness :
    (routeAndRespond wBotLLM [] [] ⟨none, none⟩ 0 (str "hi")).result
        = getBotResponse wBotLLM [] [] 0 (str "hi") ∧
    (routeAndRespond wBotLLM [] [] ⟨none, none⟩ 0 (str "hi")).llmCalls = 0 ∧
    (routeAndRespond wBotLLM [] [] ⟨none, none⟩ 0 (str "hi")).nlpCalls = 1 :=
  C5_degrade_to_intent_without_provider wBotLLM [] [] ⟨none, none⟩ 0 (str "hi")
    (by decide) (Or.inl (by decide))

theorem C6_generation_fallback_witness :
    generateLLMResponseTr ⟨some (some (str "ok")), some none⟩
      = (⟨str "ok", q 19 20, Source.llm_generation⟩, true, false) :=
  (C6_generation_fallback_chain ⟨some (some (str "ok")), some none⟩
      (by decide)).2.1 (str "ok") rfl

theorem C7_lexical_retriever_witness :
    getBotResponse wBotPlain [] [wKbItem] 0 (str "courses online")
      = ⟨(str "We offer many courses online.").take 400, none, q 7 10,
          Source.knowledge_base, some (str "Doc")⟩ ∧
    (q 7 10).val = 7 / 10 :=
  (C7_lexical_retriever wBotPlain [] [wKbItem] 0 (str "courses online")
      (by decide)).2.2
    (some (str "Doc")) ⟨str "We offer many courses online."⟩ (by decide)

theorem C10_empty_normalized_input_witness :
    (getBotResponse wBotPlain [⟨str "greet", [str "hi"], []⟩] [] 0
        (str "!!!")).source = Source.intent ∧
    ((getBotResponse wBotPlain [⟨str "greet", [str "hi"], []⟩] [] 0
        (str "!!!")).confidence = q 9 10 ∨
      (getBotResponse wBotPlain [⟨str "greet", [str "hi"], []⟩] [] 0
        (str "!!!")).confidence = q 1 1) :=
  have h := C10_empty_normalized_input wBotPlain [⟨str "greet", [str "hi"], []⟩]
    [] 0 (str "!!!") (by decide)
    ⟨⟨str "greet", [str "hi"], []⟩, by simp, by simp⟩
  ⟨h.1, h.2.1⟩

theorem C2_fuzzy_cap_witness :
    (BestIntent.mk wIntent ⟨1, 2⟩).confidence = q 1 1 ∨
    (BestIntent.mk wIntent ⟨1, 2⟩).confidence = q 9 10 ∨
    ((∃ i ∈ [wIntent], ∃ p ∈ i.trainingPhrases,
        fle (q 1 2) (phraseMatchScore (str "ax") (normalizeForMatch p)) = true ∧
        (BestIntent.mk wIntent ⟨1, 2⟩).confidence
          = fmin (phraseMatchScore (str "ax") (normalizeForMatch p)) (q 22 25)) ∧
      (BestIntent.mk wIntent ⟨1, 2⟩).confidence.val ≤ 22 / 25) :=
  (C2_fuzzy_cap_and_exact_stability (str "ax") [wIntent]).1
    ⟨wIntent, ⟨1, 2⟩⟩ (by decide)

end Cloudbot
